import Mathlib

/-!
Verification development for the preCMGsim core: the CMG run-length text
codec (`compress_array_to_cmg_format` / `decompress_cmg_format_to_array` /
`read_cmg_format_file`), the sparse-to-dense porosity scatter
(`generate_full_porosity`) and the array comparator (`compare_arrays`).

Numeric values are modelled as rationals; text is modelled as lists of
characters.  Python's `float()` is modelled on finite decimal literals
(optional sign, digits with an optional decimal point, optional exponent);
the special spellings `inf`/`nan` and digit underscores do not occur in the
CMG format and are outside the model.  The `%.6f` formatting of a value is
modelled as rounding half-to-even to six decimal places.
-/

namespace PreCMG

/-- Parse a list of decimal digit characters into a natural number, as
Python's `int()` does on a digit string. -/
def parseNat (s : List Char) : ℕ :=
  s.foldl (fun a c => a * 10 + (c.toNat - '0'.toNat)) 0

/-- Fuelled decimal rendering of a natural number, most significant digit
first.  The fuel bounds the number of digits produced. -/
def natDigitsGo : ℕ → ℕ → List Char
  | 0, _ => []
  | fuel + 1, m =>
    if m < 10 then [Nat.digitChar m]
    else natDigitsGo fuel (m / 10) ++ [Nat.digitChar (m % 10)]

/-- Decimal rendering of a natural number.  Sixteen digits of fuel cover
every magnitude arising in this development (run counts are bounded by the
array length, and rounded values by `9000 * 10^6`). -/
def natDigits (n : ℕ) : List Char := natDigitsGo 16 n

/-- Render `m < 10^6` as exactly six digits, zero-padded on the left: the
fractional part of a `%.6f` formatting. -/
def pad6 (m : ℕ) : List Char :=
  List.replicate (6 - (natDigits m).length) '0' ++ natDigits m

/-- Default absolute tolerance of `numpy.isclose`. -/
def atol : ℚ := 1 / 100000000

/-- Relative tolerance passed to `numpy.isclose` by the encoder. -/
def rtol : ℚ := 1 / 10000000000

/-- The comparison `np.isclose(a, b, rtol=1e-10)` used by
`compress_array_to_cmg_format`: `|a - b| <= atol + rtol * |b|` with numpy's
default `atol = 1e-8`. -/
def iscloseB (a b : ℚ) : Bool := decide (|a - b| ≤ atol + rtol * |b|)

/-- Round a nonnegative rational half-to-even to the nearest integer, as the
`%.6f` formatting of a float does at the last kept digit. -/
def rhe6 (q : ℚ) : ℕ :=
  let f : ℕ := q.num.toNat / q.den
  let r : ℚ := q - f
  if r < 1 / 2 then f else if 1 / 2 < (r : ℚ) then f + 1
  else if f % 2 = 0 then f else f + 1

/-- Model of the Python formatting `f"{value:.6f}"`. -/
def fmt6 (v : ℚ) : List Char :=
  let n := rhe6 (|v| * 1000000)
  (if v < 0 then ['-'] else []) ++ natDigits (n / 1000000) ++ '.' :: pad6 (n % 1000000)

/-- One CMG token for a run of `count` copies of `value`, mirroring the token
construction in `compress_array_to_cmg_format`: zero-close runs render the
integer literal `0`, other runs render with six decimals, and a count is
prefixed as `count*` only for runs longer than one. -/
def formatToken (count : ℕ) (value : ℚ) : List Char :=
  if iscloseB value 0 then
    (if count = 1 then ['0'] else natDigits count ++ '*' :: ['0'])
  else
    (if count = 1 then fmt6 value else natDigits count ++ '*' :: fmt6 value)

/-- Scan the tail of the array, extending the run of `v` while the next
element satisfies `np.isclose(next, v, rtol=1e-10)`, exactly as the inner
`while` loop of `compress_array_to_cmg_format` counts consecutive
occurrences; a failing element starts a fresh run. -/
def runsAux (v : ℚ) (c : ℕ) : List ℚ → List (ℚ × ℕ)
  | [] => [(v, c)]
  | b :: rest =>
    if iscloseB b v then runsAux v (c + 1) rest
    else (v, c) :: runsAux b 1 rest

/-- The list of (value, count) runs of an array, as traversed by the outer
`while` loop of `compress_array_to_cmg_format`. -/
def runs : List ℚ → List (ℚ × ℕ)
  | [] => []
  | v :: rest => runsAux v 1 rest

/-- The token sequence emitted by `compress_array_to_cmg_format` before line
wrapping. -/
def encodeTokens (l : List ℚ) : List (List Char) :=
  (runs l).map fun p => formatToken p.2 p.1

/-- The line-filling loop of `compress_array_to_cmg_format`: append the next
token to the current line separated by one space, closing the line first when
the extended line would exceed `maxLen`; a final nonempty line is flushed. -/
def wrapAux (maxLen : ℕ) (cur : List Char) : List (List Char) → List (List Char)
  | [] => if cur = [] then [] else [cur]
  | t :: ts =>
    if cur ≠ [] ∧ maxLen < cur.length + 1 + t.length then
      cur :: wrapAux maxLen t ts
    else
      wrapAux maxLen (if cur = [] then t else cur ++ ' ' :: t) ts

/-- `compress_array_to_cmg_format`: run-length tokens wrapped into lines of
at most `maxLen` characters. -/
def compress_array_to_cmg_format (array : List ℚ) (maxLen : ℕ) : List (List Char) :=
  wrapAux maxLen [] (encodeTokens array)

/-- The compressed document written by `generate_full_porosity_data`: the
`**FULL_POROSITY_ALL` header line followed by the compressed lines. -/
def cmgDocument (array : List ℚ) (maxLen : ℕ) : List (List Char) :=
  String.toList "**FULL_POROSITY_ALL" :: compress_array_to_cmg_format array maxLen

/-- Accumulator version of whitespace splitting. -/
def splitWsAux : List Char → List Char → List (List Char)
  | [], acc => if acc = [] then [] else [acc.reverse]
  | c :: cs, acc =>
    if c.isWhitespace then
      (if acc = [] then splitWsAux cs [] else acc.reverse :: splitWsAux cs [])
    else splitWsAux cs (c :: acc)

/-- Python's `str.split()`: split on runs of whitespace, dropping empty
fields. -/
def splitWs (s : List Char) : List (List Char) := splitWsAux s []

/-- Python's `str.strip()`: drop whitespace from both ends. -/
def wsStrip (s : List Char) : List Char :=
  ((s.dropWhile Char.isWhitespace).reverse.dropWhile Char.isWhitespace).reverse

/-- Single-space join of a list of tokens; `wrapAux` builds exactly such
lines. -/
def joinSp : List (List Char) → List Char
  | [] => []
  | [t] => t
  | t :: ts => t ++ ' ' :: joinSp ts

/-- The anchored-prefix match of the decoder's regular expression
`(\d+)\*([+-]?\d*\.?\d*)` against a token, as `re.match` performs it: on
success it yields the parsed count and the (possibly empty) text of the
value group; trailing characters after the match are ignored.  Each piece of
the pattern matches greedily and independently, which coincides with the
regex semantics because every piece after the first is optional. -/
def matchCountRun (s : List Char) : Option (ℕ × List Char) :=
  let d1 := s.takeWhile Char.isDigit
  let r1 := s.dropWhile Char.isDigit
  if d1 = [] then none
  else if r1.head? = some '*' then
    let r2 := r1.tail
    let sgr := if r2.head? = some '+' ∨ r2.head? = some '-' then (r2.take 1, r2.tail)
               else (([] : List Char), r2)
    let m1 := sgr.2.takeWhile Char.isDigit
    let r4 := sgr.2.dropWhile Char.isDigit
    let dtr := if r4.head? = some '.' then ((['.'] : List Char), r4.tail)
               else (([] : List Char), r4)
    let m2 := dtr.2.takeWhile Char.isDigit
    some (parseNat d1, sgr.1 ++ m1 ++ dtr.1 ++ m2)
  else none

/-- Exponent part of a decimal float literal. -/
def pyExp (mant : ℚ) (r : List Char) : Option ℚ :=
  let hasSign := r.head? = some '+' ∨ r.head? = some '-'
  let esgn : ℤ := if r.head? = some '-' then -1 else 1
  let r1 := if hasSign then r.tail else r
  let ed := r1.takeWhile Char.isDigit
  let rr := r1.dropWhile Char.isDigit
  if ed = [] ∨ rr ≠ [] then none
  else some (mant * (10 : ℚ) ^ (esgn * (parseNat ed : ℤ)))

/-- Model of Python's `float()` on finite decimal literals: an optional
sign, digits around an optional decimal point (at least one digit required),
and an optional exponent.  Returns `none` exactly where `float()` raises
`ValueError` on such strings. -/
def pyFloat (s : List Char) : Option ℚ :=
  let hasSign := s.head? = some '+' ∨ s.head? = some '-'
  let sgn : ℚ := if s.head? = some '-' then -1 else 1
  let s1 := if hasSign then s.tail else s
  let d1 := s1.takeWhile Char.isDigit
  let r1 := s1.dropWhile Char.isDigit
  let hasDot := r1.head? = some '.'
  let s2 := if hasDot then r1.tail else r1
  let d2 := s2.takeWhile Char.isDigit
  let r2 := s2.dropWhile Char.isDigit
  if d1 = [] ∧ d2 = [] then none
  else
    let mant : ℚ := sgn * (parseNat d1 + parseNat d2 / 10 ^ d2.length)
    if r2 = [] then some mant
    else if r2.head? = some 'e' ∨ r2.head? = some 'E' then pyExp mant r2.tail
    else none

/-- Failures of the decoding path: `valueError` is the uncaught `ValueError`
raised by `float()` on the value group of a matched count-run token, and
`noNumeric` is the empty-result `ValueError` raised by
`read_cmg_format_file`. -/
inductive DErr where
  | valueError (s : List Char)
  | noNumeric
  deriving DecidableEq

/-- Decode one whitespace-separated token, mirroring the token loop of
`decompress_cmg_format_to_array` / `read_cmg_format_file`: a count-run match
replicates its value (an unparseable value group raises), otherwise a bare
float is appended once, and anything else is silently skipped. -/
def decodeToken (t : List Char) : Except DErr (List ℚ) :=
  match matchCountRun t with
  | some (c, g2) =>
    match pyFloat g2 with
    | some v => .ok (List.replicate c v)
    | none => .error (.valueError g2)
  | none =>
    match pyFloat t with
    | some v => .ok [v]
    | none => .ok []

/-- Decode a token list in order, aborting at the first raising token. -/
def decodeTokens : List (List Char) → Except DErr (List ℚ)
  | [] => .ok []
  | t :: ts =>
    match decodeToken t with
    | .error e => .error e
    | .ok vs =>
      match decodeTokens ts with
      | .error e => .error e
      | .ok rest => .ok (vs ++ rest)

/-- `decompress_cmg_format_to_array` on the lines of a CMG document: strip
each line, skip blank lines and `**` comments, and decode the whitespace
tokens of the remaining lines in order. -/
def decompress_cmg_format_to_array : List (List Char) → Except DErr (List ℚ)
  | [] => .ok []
  | l :: ls =>
    let s := wsStrip l
    if s = [] ∨ s.take 2 = ['*', '*'] then decompress_cmg_format_to_array ls
    else
      match decodeTokens (splitWs s) with
      | .error e => .error e
      | .ok vs =>
        match decompress_cmg_format_to_array ls with
        | .error e => .error e
        | .ok rest => .ok (vs ++ rest)

/-- `read_cmg_format_file`: identical token processing, but an empty value
sequence raises `ValueError` ("no numerical values found"). -/
def read_cmg_format_file (lines : List (List Char)) : Except DErr (List ℚ) :=
  match decompress_cmg_format_to_array lines with
  | .error e => .error e
  | .ok [] => .error .noNumeric
  | .ok vs => .ok vs

/-- Failures of `generate_full_porosity`: mismatched input lengths, ids
outside `[1, total_cells]`, and the `numpy` reduction error raised by
`np.min` on an empty id array. -/
inductive ScatterErr where
  | cardinalityMismatch (numIds numValues : ℕ)
  | outOfRange (minId maxId : ℤ) (lo : ℤ) (hi : ℕ)
  | emptyReduction
  deriving DecidableEq

/-- `np.min` over a nonempty list given as head and tail. -/
def npMin (i : ℤ) (is : List ℤ) : ℤ := is.foldl min i

/-- `np.max` over a nonempty list given as head and tail. -/
def npMax (i : ℤ) (is : List ℤ) : ℤ := is.foldl max i

/-- The fancy-indexing assignment `full_porosity[ids - 1] = values` on a
zero-initialised array of length `total`: later writes to a repeated id win. -/
def fillActive (total : ℕ) (pairs : List (ℤ × ℚ)) : List ℚ :=
  pairs.foldl (fun arr p => arr.set (p.1 - 1).toNat p.2) (List.replicate total (0 : ℚ))

/-- The validation and scatter core of `generate_full_porosity`: check that
ids and values have equal length, check the id range via `np.min`/`np.max`
(which raises on an empty array), then scatter onto a zero-filled dense
array. -/
def generate_full_porosity (ids : List ℤ) (values : List ℚ) (totalCells : ℕ) :
    Except ScatterErr (List ℚ) :=
  if ids.length ≠ values.length then
    .error (.cardinalityMismatch ids.length values.length)
  else
    match ids with
    | [] => .error .emptyReduction
    | i :: is =>
      if npMin i is < 1 ∨ (totalCells : ℤ) < npMax i is then
        .error (.outOfRange (npMin i is) (npMax i is) 1 totalCells)
      else .ok (fillActive totalCells ((i :: is).zip values))

/-- Structured results of `compare_arrays`, one constructor per dictionary
shape returned by the source. -/
inductive CompareResult where
  | emptyInput (side : ℕ) (size1 size2 : ℕ)
  | lengthMismatch (size1 size2 : ℕ)
  | exactMatch
  | toleranceMatch (maxDiff meanDiff : ℚ)
  | notIdentical (maxDiff meanDiff : ℚ) (differentElements : ℕ) (differentIndices : List ℕ)
  deriving DecidableEq

/-- `compare_arrays`: empty-input and length checks first, then exact
equality, then element-wise absolute differences against the tolerance.  All
failure modes are returned as structured results, never raised. -/
def compare_arrays (a b : List ℚ) (tol : ℚ) : CompareResult :=
  if a.length = 0 then .emptyInput 1 0 b.length
  else if b.length = 0 then .emptyInput 2 a.length 0
  else if a.length ≠ b.length then .lengthMismatch a.length b.length
  else if a = b then .exactMatch
  else
    let diffs := List.zipWith (fun x y => |x - y|) a b
    let maxDiff := diffs.foldl max 0
    let meanDiff := diffs.sum / (diffs.length : ℚ)
    let offending := (diffs.enum.filter fun p => tol < p.2).map Prod.fst
    if offending.length = 0 then .toleranceMatch maxDiff meanDiff
    else .notIdentical maxDiff meanDiff offending.length offending

/-- Well-formed emitted tokens: nonempty and free of whitespace, so that a
line of space-joined tokens splits back into exactly those tokens. -/
def tokensOK (l : List (List Char)) : Prop :=
  ∀ t ∈ l, t ≠ [] ∧ ∀ c ∈ t, c.isWhitespace = false

end PreCMG

namespace PreCMG

/-- All facts needed about the ten digit characters. -/
theorem digitChar_good : ∀ d < 10, (Nat.digitChar d).isDigit = true ∧
    (Nat.digitChar d).isWhitespace = false ∧ Nat.digitChar d ≠ '*' ∧
    Nat.digitChar d ≠ '.' ∧ (Nat.digitChar d).toNat - 48 = d := by
  decide

theorem ne_of_isDigit {c : Char} (h : c.isDigit = true) :
    c ≠ '*' ∧ c ≠ '.' ∧ c ≠ '+' ∧ c ≠ '-' ∧ c ≠ 'e' ∧ c ≠ 'E' ∧ c.isWhitespace = false := by
  have h32 : c ≠ ' ' := by rintro rfl; exact absurd h (by decide)
  have h9 : c ≠ '\t' := by rintro rfl; exact absurd h (by decide)
  have h13 : c ≠ '\r' := by rintro rfl; exact absurd h (by decide)
  have h10 : c ≠ '\n' := by rintro rfl; exact absurd h (by decide)
  refine ⟨?_, ?_, ?_, ?_, ?_, ?_, ?_⟩
  · rintro rfl; exact absurd h (by decide)
  · rintro rfl; exact absurd h (by decide)
  · rintro rfl; exact absurd h (by decide)
  · rintro rfl; exact absurd h (by decide)
  · rintro rfl; exact absurd h (by decide)
  · rintro rfl; exact absurd h (by decide)
  · simp [Char.isWhitespace, h32, h9, h13, h10]

theorem takeWhile_append_all {p : Char → Bool} {xs : List Char}
    (h : ∀ c ∈ xs, p c = true) (ys : List Char) :
    (xs ++ ys).takeWhile p = xs ++ ys.takeWhile p := by
  induction xs with
  | nil => simp
  | cons a l ih =>
    simp only [List.cons_append, List.takeWhile_cons, h a (List.mem_cons_self a l), if_true]
    rw [ih fun c hc => h c (List.mem_cons_of_mem a hc)]

theorem dropWhile_append_all {p : Char → Bool} {xs : List Char}
    (h : ∀ c ∈ xs, p c = true) (ys : List Char) :
    (xs ++ ys).dropWhile p = ys.dropWhile p := by
  induction xs with
  | nil => simp
  | cons a l ih =>
    simp only [List.cons_append, List.dropWhile_cons, h a (List.mem_cons_self a l), if_true]
    exact ih fun c hc => h c (List.mem_cons_of_mem a hc)

theorem parseNat_nil : parseNat [] = 0 := rfl

theorem parseNat_concat (xs : List Char) (c : Char) :
    parseNat (xs ++ [c]) = parseNat xs * 10 + (c.toNat - '0'.toNat) := by
  simp [parseNat, List.foldl_append]

theorem parseNat_zeros_append (k : ℕ) (xs : List Char) :
    parseNat (List.replicate k '0' ++ xs) = parseNat xs := by
  induction k with
  | zero => simp
  | succ n ih =>
    have : List.replicate (n + 1) '0' ++ xs = '0' :: (List.replicate n '0' ++ xs) := by
      simp [List.replicate_succ]
    rw [this]
    show List.foldl _ (0 * 10 + ('0'.toNat - '0'.toNat)) _ = _
    simpa [parseNat] using ih

theorem natDigitsGo_parse : ∀ fuel m, m < 10 ^ fuel → parseNat (natDigitsGo fuel m) = m := by
  intro fuel
  induction fuel with
  | zero => intro m hm; interval_cases m; rfl
  | succ f ih =>
    intro m hm
    by_cases h10 : m < 10
    · simp only [natDigitsGo, if_pos h10]
      have hd := (digitChar_good m h10).2.2.2.2
      show parseNat ([] ++ [Nat.digitChar m]) = m
      rw [parseNat_concat]
      simp only [parseNat_nil, Nat.zero_mul, Nat.zero_add]
      exact hd
    · simp only [natDigitsGo, if_neg h10]
      rw [parseNat_concat]
      have hdiv : m / 10 < 10 ^ f := by
        rw [Nat.div_lt_iff_lt_mul (by norm_num)]
        calc m < 10 ^ (f + 1) := hm
        _ = 10 ^ f * 10 := by ring
      rw [ih (m / 10) hdiv]
      have hd := (digitChar_good (m % 10) (Nat.mod_lt m (by norm_num))).2.2.2.2
      rw [show '0'.toNat = 48 from rfl, hd]
      omega

theorem natDigitsGo_digits : ∀ fuel m c, c ∈ natDigitsGo fuel m → c.isDigit = true := by
  intro fuel
  induction fuel with
  | zero => intro m c hc; simp [natDigitsGo] at hc
  | succ f ih =>
    intro m c hc
    by_cases h10 : m < 10
    · simp only [natDigitsGo, if_pos h10, List.mem_singleton] at hc
      subst hc; exact (digitChar_good m h10).1
    · simp only [natDigitsGo, if_neg h10, List.mem_append, List.mem_singleton] at hc
      rcases hc with hc | hc
      · exact ih _ _ hc
      · subst hc; exact (digitChar_good (m % 10) (Nat.mod_lt m (by norm_num))).1

theorem natDigitsGo_ne_nil (fuel m : ℕ) : natDigitsGo (fuel + 1) m ≠ [] := by
  by_cases h10 : m < 10 <;> simp [natDigitsGo, h10]

theorem natDigitsGo_len : ∀ fuel m k, 1 ≤ k → m < 10 ^ k → (natDigitsGo fuel m).length ≤ k := by
  intro fuel
  induction fuel with
  | zero => intro m k hk _; simp [natDigitsGo]
  | succ f ih =>
    intro m k hk hm
    by_cases h10 : m < 10
    · simp [natDigitsGo, h10]; omega
    · simp only [natDigitsGo, if_neg h10, List.length_append, List.length_singleton]
      have hk2 : 2 ≤ k := by
        by_contra hlt
        have : k = 1 := by omega
        subst this
        simp at hm; omega
      have hdiv : m / 10 < 10 ^ (k - 1) := by
        rw [Nat.div_lt_iff_lt_mul (by norm_num)]
        calc m < 10 ^ k := hm
        _ = 10 ^ (k - 1) * 10 := by
            rw [← pow_succ]
            congr 1
            omega
      have := ih (m / 10) (k - 1) (by omega) hdiv
      omega

theorem natDigits_parse {m : ℕ} (hm : m < 10 ^ 16) : parseNat (natDigits m) = m :=
  natDigitsGo_parse 16 m hm

theorem natDigits_digits {m : ℕ} {c : Char} (hc : c ∈ natDigits m) : c.isDigit = true :=
  natDigitsGo_digits 16 m c hc

theorem natDigits_ne_nil (m : ℕ) : natDigits m ≠ [] := natDigitsGo_ne_nil 15 m

theorem natDigits_len {m k : ℕ} (hk : 1 ≤ k) (hm : m < 10 ^ k) : (natDigits m).length ≤ k :=
  natDigitsGo_len 16 m k hk hm

theorem pad6_digits {m : ℕ} {c : Char} (hc : c ∈ pad6 m) : c.isDigit = true := by
  simp only [pad6, List.mem_append, List.mem_replicate] at hc
  rcases hc with ⟨_, rfl⟩ | hc
  · decide
  · exact natDigits_digits hc

theorem pad6_len {m : ℕ} (hm : m < 10 ^ 6) : (pad6 m).length = 6 := by
  have h := natDigits_len (k := 6) (by norm_num) hm
  simp only [pad6, List.length_append, List.length_replicate]
  omega

theorem parseNat_pad6 {m : ℕ} (hm : m < 10 ^ 6) : parseNat (pad6 m) = m := by
  rw [pad6, parseNat_zeros_append]
  exact natDigits_parse (lt_trans hm (by norm_num))

theorem pad6_ne_nil (m : ℕ) : pad6 m ≠ [] := by
  simp only [pad6]
  intro h
  rcases List.append_eq_nil.mp h with ⟨_, h2⟩
  exact natDigits_ne_nil m h2

end PreCMG

namespace PreCMG

theorem isclose_iff (a b : ℚ) : iscloseB a b = true ↔ |a - b| ≤ atol + rtol * |b| := by
  simp [iscloseB]

theorem isclose_refl (v : ℚ) : iscloseB v v = true := by
  rw [isclose_iff]
  simp only [sub_self, abs_zero, atol, rtol]
  positivity

theorem den_one_cast {v : ℚ} (h : (v * 1000000).den = 1) :
    (((v * 1000000).num : ℤ) : ℚ) = v * 1000000 :=
  (Rat.den_eq_one_iff _).mp h

theorem isclose_eq {a b : ℚ} (ha1 : (a * 1000000).den = 1) (hb1 : (b * 1000000).den = 1)
    (hb2 : |b| ≤ 9000) (h : iscloseB a b = true) : a = b := by
  have hm : (((a * 1000000).num : ℤ) : ℚ) = a * 1000000 := den_one_cast ha1
  have hn : (((b * 1000000).num : ℤ) : ℚ) = b * 1000000 := den_one_cast hb1
  rw [isclose_iff] at h
  by_contra hne
  have hmn : (a * 1000000).num ≠ (b * 1000000).num := by
    intro he
    apply hne
    have h2 : a * 1000000 = b * 1000000 := by rw [← hm, ← hn, he]
    exact mul_right_cancel₀ (by norm_num) h2
  have h1 : (1 : ℚ) ≤ |((a * 1000000).num : ℚ) - ((b * 1000000).num : ℚ)| := by
    have hz := Int.one_le_abs (sub_ne_zero.mpr hmn)
    calc (1 : ℚ) = ((1 : ℤ) : ℚ) := by norm_num
    _ ≤ ((|(a * 1000000).num - (b * 1000000).num| : ℤ) : ℚ) := by exact_mod_cast hz
    _ = |(((a * 1000000).num - (b * 1000000).num : ℤ) : ℚ)| := Int.cast_abs
    _ = |((a * 1000000).num : ℚ) - ((b * 1000000).num : ℚ)| := by push_cast; ring_nf
  rw [hm, hn] at h1
  have habs : |a * 1000000 - b * 1000000| = |a - b| * 1000000 := by
    rw [← sub_mul, abs_mul]
    norm_num
  rw [habs] at h1
  have hb' : rtol * |b| ≤ rtol * 9000 := by
    apply mul_le_mul_of_nonneg_left hb2
    norm_num [rtol]
  simp only [atol, rtol] at h hb'
  have hab : |a - b| ≤ 1 / 100000000 + 1 / 10000000000 * 9000 := by linarith
  have := mul_le_mul_of_nonneg_right hab (by norm_num : (0 : ℚ) ≤ 1000000)
  linarith

theorem isclose_zero_iff {v : ℚ} (h1 : (v * 1000000).den = 1) :
    iscloseB v 0 = true ↔ v = 0 := by
  rw [isclose_iff]
  simp only [sub_zero, abs_zero, mul_zero, add_zero]
  constructor
  · intro h
    have hm : (((v * 1000000).num : ℤ) : ℚ) = v * 1000000 := den_one_cast h1
    by_contra hne
    have hnum : (v * 1000000).num ≠ 0 := by
      intro he
      apply hne
      rw [he] at hm
      have : v * 1000000 = 0 := by exact_mod_cast hm.symm
      exact (mul_eq_zero.mp this).resolve_right (by norm_num)
    have hz := Int.one_le_abs hnum
    have h1' : (1 : ℚ) ≤ |v * 1000000| := by
      calc (1 : ℚ) = ((1 : ℤ) : ℚ) := by norm_num
      _ ≤ ((|(v * 1000000).num| : ℤ) : ℚ) := by exact_mod_cast hz
      _ = |(((v * 1000000).num : ℤ) : ℚ)| := Int.cast_abs
      _ = |v * 1000000| := by rw [hm]
    have habs : |v * 1000000| = |v| * 1000000 := by
      rw [abs_mul]; norm_num
    rw [habs] at h1'
    simp only [atol] at h
    have := mul_le_mul_of_nonneg_right h (by norm_num : (0 : ℚ) ≤ 1000000)
    linarith
  · rintro rfl
    norm_num [atol]

/-- C8: encoding `[0, 0, 0, 1.0, 1.0, 2.5]` with maximum line width 80
produces exactly the tokens `3*0`, `2*1.000000`, `2.500000`, emitted on a
single line. -/
theorem c8_compression_example :
    compress_array_to_cmg_format [0, 0, 0, 1, 1, 5/2] 80 =
      [String.toList "3*0 2*1.000000 2.500000"] ∧
    encodeTokens [0, 0, 0, 1, 1, 5/2] =
      [String.toList "3*0", String.toList "2*1.000000", String.toList "2.500000"] := by
  constructor
  · with_unfolding_all rfl
  · with_unfolding_all rfl

/-- C9: whenever two nonempty arrays have different lengths, `compare_arrays`
returns the structured `lengthMismatch` result carrying both sizes (it does
not raise). -/
theorem c9_compare_length_mismatch (a b : List ℚ) (tol : ℚ)
    (ha : a ≠ []) (hb : b ≠ []) (hlen : a.length ≠ b.length) :
    compare_arrays a b tol = .lengthMismatch a.length b.length := by
  rw [compare_arrays]
  rw [if_neg (by simpa [List.length_eq_zero] using ha)]
  rw [if_neg (by simpa [List.length_eq_zero] using hb)]
  rw [if_pos hlen]

/-- Witness for C9 at the arrays of the claim: sizes 2 and 3 are reported. -/
theorem c9_witness :
    compare_arrays [1, 2] [1, 2, 3] (1/10000000000) = .lengthMismatch 2 3 :=
  c9_compare_length_mismatch [1, 2] [1, 2, 3] (1/10000000000)
    (by decide) (by decide) (by decide)

/-- C3: `generate_full_porosity` fails with the cardinality error (reporting
both lengths) whenever the id and value lists have different lengths, fails
with the out-of-range error (reporting the offending bounds and the valid
range `[1, totalCells]`) whenever the lengths agree and `min < 1` or
`max > totalCells`, and in either situation returns no dense array at all. -/
theorem c3_scatter_validation (ids : List ℤ) (values : List ℚ) (total : ℕ) :
    (ids.length ≠ values.length →
      generate_full_porosity ids values total =
        .error (.cardinalityMismatch ids.length values.length)) ∧
    (∀ i is, ids = i :: is → ids.length = values.length →
      npMin i is < 1 ∨ (total : ℤ) < npMax i is →
      generate_full_porosity ids values total =
        .error (.outOfRange (npMin i is) (npMax i is) 1 total)) ∧
    ((ids.length ≠ values.length ∨
        ∃ i is, ids = i :: is ∧ (npMin i is < 1 ∨ (total : ℤ) < npMax i is)) →
      ∀ arr, generate_full_porosity ids values total ≠ .ok arr) := by
  refine ⟨?_, ?_, ?_⟩
  · intro h
    rw [generate_full_porosity.eq_def, if_pos h]
  · rintro i is rfl hlen hrange
    rw [generate_full_porosity, if_neg (by simp [hlen])]
    simp only [if_pos hrange]
  · intro h arr
    by_cases hl : ids.length ≠ values.length
    · rw [generate_full_porosity.eq_def, if_pos hl]
      simp
    · rcases h with h | ⟨i, is, rfl, hrange⟩
      · exact absurd h (by simpa using hl)
      · rw [generate_full_porosity.eq_def, if_neg hl]
        simp only [if_pos hrange]
        simp

/-- Witness for C3: a length mismatch, an out-of-range id, and the absence of
any produced array, each at concrete inputs. -/
theorem c3_witness :
    generate_full_porosity [1, 2] [1] 10 = .error (.cardinalityMismatch 2 1) ∧
    generate_full_porosity [0] [1] 10 = .error (.outOfRange 0 0 1 10) ∧
    generate_full_porosity [11] [1] 10 ≠ .ok (List.replicate 10 0) := by
  refine ⟨?_, ?_, ?_⟩
  · exact (c3_scatter_validation [1, 2] [1] 10).1 (by decide)
  · exact (c3_scatter_validation [0] [1] 10).2.1 0 [] rfl (by decide) (by decide)
  · exact (c3_scatter_validation [11] [1] 10).2.2
      (Or.inr ⟨11, [], rfl, by decide⟩) (List.replicate 10 0)

/-- C1 counterexample: the encoder renders `10^-9` with the integer-zero
token (it is within numpy's default absolute tolerance of zero), so decoding
the encoded document yields `0`, not the original value: decode is not an
exact left inverse of encode on arbitrary bounded floats. -/
theorem c1_roundtrip_cex :
    decompress_cmg_format_to_array (cmgDocument [1/1000000000] 80) = .ok [0] ∧
    (0 : ℚ) ≠ 1/1000000000 := by
  constructor
  · with_unfolding_all rfl
  · norm_num

/-- C2 counterexample: the encoder's equality test has numpy's default
absolute term `1e-8`, so `10^-9` both extends a run of `0.0` and is itself
rendered with the integer-zero token, although the pure relative tolerance
`|a-b| <= 1e-10 * |b|` of the claim rejects both. -/
theorem c2_tolerance_cex :
    runs [(0 : ℚ), 1/1000000000] = [((0 : ℚ), 2)] ∧
    ¬(|(1/1000000000 : ℚ) - 0| ≤ 1/10000000000 * |(0 : ℚ)|) ∧
    encodeTokens [1/1000000000] = [['0']] ∧ (1/1000000000 : ℚ) ≠ 0 := by
  refine ⟨?_, ?_, ?_, ?_⟩
  · with_unfolding_all rfl
  · norm_num
  · with_unfolding_all rfl
  · norm_num

/-- C4 counterexample: on the valid (vacuously in-range) empty input the
scatter does not return the zero-filled dense array: `np.min` raises on an
empty id array, so no dense array is produced at all. -/
theorem c4_zero_fill_cex :
    generate_full_porosity [] [] 3 = .error .emptyReduction ∧
    (Except.error ScatterErr.emptyReduction : Except ScatterErr (List ℚ)) ≠
      .ok [0, 0, 0] := by
  constructor
  · rfl
  · simp

/-- C5 counterexample: the token `3*abc` matches the count-run pattern with
an empty value group, and the uncaught `float('')` conversion aborts the
whole decode with an error: a malformed token can abort decoding, and the
values before and after it are lost. -/
theorem c5_skip_cex :
    decompress_cmg_format_to_array [String.toList "0 3*abc 1.5"] =
      .error (.valueError []) := by
  with_unfolding_all rfl

/-- C6 counterexample: a document whose parse has already produced the value
`1.5` still fails, and with the token-level `valueError` rather than the
empty-result error: decode does not fail exactly on emptiness. -/
theorem c6_empty_result_cex :
    read_cmg_format_file [String.toList "1.5 3*abc"] = .error (.valueError []) ∧
    DErr.valueError [] ≠ DErr.noNumeric := by
  constructor
  · with_unfolding_all rfl
  · simp

end PreCMG

namespace PreCMG

theorem rhe6_natCast (m : ℕ) : rhe6 ((m : ℕ) : ℚ) = m := by
  rw [rhe6]
  simp only [Rat.num_natCast, Rat.den_natCast, Int.toNat_natCast, Nat.div_one]
  rw [if_pos]
  rw [sub_self]
  norm_num

theorem fmt6_eq {v : ℚ} (h1 : (v * 1000000).den = 1) :
    fmt6 v = (if v < 0 then ['-'] else []) ++
      natDigits ((v * 1000000).num.natAbs / 1000000) ++
      '.' :: pad6 ((v * 1000000).num.natAbs % 1000000) := by
  have hm : (((v * 1000000).num : ℤ) : ℚ) = v * 1000000 := den_one_cast h1
  have habs : |v| * 1000000 = (((v * 1000000).num.natAbs : ℕ) : ℚ) := by
    have h2 : |v * 1000000| = |v| * 1000000 := by rw [abs_mul]; norm_num
    have h3 : |(((v * 1000000).num : ℤ) : ℚ)| = (((v * 1000000).num.natAbs : ℕ) : ℚ) := by
      rw [Int.cast_natAbs, Int.cast_abs]
    rw [← h3, hm]
    exact h2.symm
  rw [fmt6, habs, rhe6_natCast]

end PreCMG

namespace PreCMG

theorem takeWhile_all {p : Char → Bool} {xs : List Char} (h : ∀ c ∈ xs, p c = true) :
    xs.takeWhile p = xs := by
  have := takeWhile_append_all h []
  simpa using this

theorem dropWhile_all {p : Char → Bool} {xs : List Char} (h : ∀ c ∈ xs, p c = true) :
    xs.dropWhile p = [] := by
  have := dropWhile_append_all h []
  simpa using this

theorem fmt6_chars {v : ℚ} {c : Char} (hc : c ∈ fmt6 v) :
    c = '-' ∨ c = '.' ∨ c.isDigit = true := by
  simp only [fmt6, List.mem_append, List.mem_cons] at hc
  rcases hc with (hc | hc) | hc | hc
  · left
    by_cases hv : v < 0 <;> simp [hv] at hc
    exact hc
  · right; right; exact natDigits_digits hc
  · right; left; exact hc
  · right; right; exact pad6_digits hc

theorem fmt6_shape (v : ℚ) :
    fmt6 v = (if v < 0 then ['-'] else []) ++
      natDigits (rhe6 (|v| * 1000000) / 1000000) ++
      '.' :: pad6 (rhe6 (|v| * 1000000) % 1000000) := rfl

theorem mcr_fmt6_none (v : ℚ) : matchCountRun (fmt6 v) = none := by
  rw [fmt6_shape]
  by_cases hv : v < 0
  · rw [if_pos hv]
    rw [matchCountRun]
    have h1 : (('-' :: (natDigits (rhe6 (|v| * 1000000) / 1000000) ++
        '.' :: pad6 (rhe6 (|v| * 1000000) % 1000000))).takeWhile Char.isDigit) = [] := by
      simp [List.takeWhile_cons]
    simp only [List.singleton_append, h1]
    simp
  · rw [if_neg hv]
    rw [matchCountRun]
    have hd : ∀ c ∈ natDigits (rhe6 (|v| * 1000000) / 1000000), c.isDigit = true :=
      fun c hc => natDigits_digits hc
    have h1 : ((natDigits (rhe6 (|v| * 1000000) / 1000000) ++
        '.' :: pad6 (rhe6 (|v| * 1000000) % 1000000)).takeWhile Char.isDigit) =
        natDigits (rhe6 (|v| * 1000000) / 1000000) := by
      rw [takeWhile_append_all hd]
      simp [List.takeWhile_cons]
    have h2 : ((natDigits (rhe6 (|v| * 1000000) / 1000000) ++
        '.' :: pad6 (rhe6 (|v| * 1000000) % 1000000)).dropWhile Char.isDigit) =
        '.' :: pad6 (rhe6 (|v| * 1000000) % 1000000) := by
      rw [dropWhile_append_all hd]
      simp [List.dropWhile_cons]
    simp only [List.nil_append, h1, h2]
    rw [if_neg (by simp [natDigits_ne_nil])]
    rw [if_neg (by simp)]

theorem pyFloat_shape (neg : Bool) (A B : List Char)
    (hA : ∀ c ∈ A, c.isDigit = true) (hAne : A ≠ [])
    (hB : ∀ c ∈ B, c.isDigit = true) :
    pyFloat ((if neg then ['-'] else []) ++ A ++ '.' :: B) =
      some ((if neg then (-1 : ℚ) else 1) * (parseNat A + parseNat B / 10 ^ B.length)) := by
  obtain ⟨a, A', rfl⟩ := List.exists_cons_of_ne_nil hAne
  have haD : a.isDigit = true := hA a (List.mem_cons_self a A')
  obtain ⟨hne1, hne2, hne3, hne4, _, _, _⟩ := ne_of_isDigit haD
  have htake2 : List.takeWhile Char.isDigit (a :: (A' ++ '.' :: B)) = a :: A' := by
    have := takeWhile_append_all hA ('.' :: B)
    simpa [List.takeWhile_cons, List.cons_append] using this
  have hdrop2 : List.dropWhile Char.isDigit (a :: (A' ++ '.' :: B)) = '.' :: B := by
    have := dropWhile_append_all hA ('.' :: B)
    simpa [List.dropWhile_cons, List.cons_append] using this
  cases neg with
  | false =>
    rw [pyFloat]
    simp [List.cons_append, List.head?_cons, hne3, hne4, htake2, hdrop2,
      takeWhile_all hB, dropWhile_all hB]
  | true =>
    rw [pyFloat]
    simp [List.cons_append, List.head?_cons, htake2, hdrop2,
      takeWhile_all hB, dropWhile_all hB]

end PreCMG

namespace PreCMG

theorem mcr_general (cd sd d1 dt d2 rest : List Char)
    (hcd : cd ≠ []) (hcdD : ∀ c ∈ cd, c.isDigit = true)
    (hsd : sd = [] ∨ sd = ['+'] ∨ sd = ['-'])
    (hd1 : ∀ c ∈ d1, c.isDigit = true) (hd2 : ∀ c ∈ d2, c.isDigit = true)
    (hdt : dt = ['.'] ∨ (dt = [] ∧ d2 = []))
    (hstem : d1 ≠ [] ∨ dt = ['.'])
    (hrest : ∀ c, rest.head? = some c → c.isDigit = false ∧ (dt = [] → c ≠ '.')) :
    matchCountRun (cd ++ '*' :: (sd ++ (d1 ++ (dt ++ (d2 ++ rest))))) =
      some (parseNat cd, sd ++ (d1 ++ (dt ++ d2))) := by
  have hrest_take : List.takeWhile Char.isDigit rest = [] := by
    cases rest with
    | nil => rfl
    | cons c cs => simp [List.takeWhile_cons, (hrest c rfl).1]
  have hrest_drop : List.dropWhile Char.isDigit rest = rest := by
    cases rest with
    | nil => rfl
    | cons c cs => simp [List.dropWhile_cons, (hrest c rfl).1]
  have hdtd2_take : List.takeWhile Char.isDigit (dt ++ (d2 ++ rest)) = [] := by
    rcases hdt with rfl | ⟨rfl, rfl⟩
    · simp [List.takeWhile_cons]
    · simpa using hrest_take
  have hdtd2_drop : List.dropWhile Char.isDigit (dt ++ (d2 ++ rest)) = dt ++ (d2 ++ rest) := by
    rcases hdt with rfl | ⟨rfl, rfl⟩
    · simp [List.dropWhile_cons]
    · simpa using hrest_drop
  have h3take : List.takeWhile Char.isDigit (d1 ++ (dt ++ (d2 ++ rest))) = d1 := by
    rw [takeWhile_append_all hd1, hdtd2_take, List.append_nil]
  have h3drop : List.dropWhile Char.isDigit (d1 ++ (dt ++ (d2 ++ rest))) = dt ++ (d2 ++ rest) := by
    rw [dropWhile_append_all hd1, hdtd2_drop]
  have h5take : List.takeWhile Char.isDigit (d2 ++ rest) = d2 := by
    rw [takeWhile_append_all hd2, hrest_take, List.append_nil]
  have hsignF : ∀ c, (d1 ++ (dt ++ (d2 ++ rest))).head? = some c → c ≠ '+' ∧ c ≠ '-' := by
    intro c hc
    cases d1 with
    | cons a d1' =>
      simp only [List.cons_append, List.head?_cons, Option.some.injEq] at hc
      have h := ne_of_isDigit (hd1 a (List.mem_cons_self a d1'))
      exact hc ▸ ⟨h.2.2.1, h.2.2.2.1⟩
    | nil =>
      rcases hstem with hne | rfl
      · exact absurd rfl hne
      · simp only [List.nil_append, List.cons_append, List.head?_cons,
          Option.some.injEq] at hc
        exact hc ▸ ⟨by decide, by decide⟩
  have F1 : (cd ++ '*' :: (sd ++ (d1 ++ (dt ++ (d2 ++ rest))))).takeWhile Char.isDigit = cd := by
    rw [takeWhile_append_all hcdD]
    simp [List.takeWhile_cons]
  have F2 : (cd ++ '*' :: (sd ++ (d1 ++ (dt ++ (d2 ++ rest))))).dropWhile Char.isDigit =
      '*' :: (sd ++ (d1 ++ (dt ++ (d2 ++ rest)))) := by
    rw [dropWhile_append_all hcdD]
    simp [List.dropWhile_cons]
  have hdF : dt = [] → ¬((d2 ++ rest).head? = some '.') := by
    rintro rfl h
    rcases hdt with hbad | ⟨-, rfl⟩
    · exact absurd hbad (by simp)
    · cases rest with
      | nil => simp at h
      | cons c cs =>
        simp only [List.nil_append, List.head?_cons, Option.some.injEq] at h
        exact (hrest c rfl).2 rfl (h ▸ rfl)
  have hOr : ¬((d1 ++ (dt ++ (d2 ++ rest))).head? = some '+' ∨
      (d1 ++ (dt ++ (d2 ++ rest))).head? = some '-') := by
    rintro (hc | hc)
    · exact (hsignF '+' hc).1 rfl
    · exact (hsignF '-' hc).2 rfl
  rw [matchCountRun]
  simp only [F1, F2, List.head?_cons, List.tail_cons]
  rw [if_neg hcd]
  rw [if_pos (trivial : True)]
  rcases hsd with rfl | rfl | rfl
  · simp only [List.nil_append]
    rw [if_neg hOr]
    rcases hdt with rfl | ⟨rfl, rfl⟩
    · have A1 : List.takeWhile Char.isDigit (d1 ++ '.' :: (d2 ++ rest)) = d1 := by
        simpa using h3take
      have A2 : List.dropWhile Char.isDigit (d1 ++ '.' :: (d2 ++ rest)) =
          '.' :: (d2 ++ rest) := by
        simpa using h3drop
      simp [A1, A2, h5take]
    · have B1 : List.takeWhile Char.isDigit (d1 ++ rest) = d1 := by simpa using h3take
      have B2 : List.dropWhile Char.isDigit (d1 ++ rest) = rest := by simpa using h3drop
      have B3 : (rest.head? = some '.') = False := eq_false (by simpa using hdF rfl)
      simp [B1, B2, B3, hrest_take]
  · have hsgn : ((['+'] : List Char) ++ (d1 ++ (dt ++ (d2 ++ rest)))).head? = some '+' := rfl
    rw [if_pos (Or.inl hsgn)]
    rcases hdt with rfl | ⟨rfl, rfl⟩
    · have A1 : List.takeWhile Char.isDigit (d1 ++ '.' :: (d2 ++ rest)) = d1 := by
        simpa using h3take
      have A2 : List.dropWhile Char.isDigit (d1 ++ '.' :: (d2 ++ rest)) =
          '.' :: (d2 ++ rest) := by
        simpa using h3drop
      simp [A1, A2, h5take]
    · have B1 : List.takeWhile Char.isDigit (d1 ++ rest) = d1 := by simpa using h3take
      have B2 : List.dropWhile Char.isDigit (d1 ++ rest) = rest := by simpa using h3drop
      have B3 : (rest.head? = some '.') = False := eq_false (by simpa using hdF rfl)
      simp [B1, B2, B3, hrest_take]
  · have hsgn : ((['-'] : List Char) ++ (d1 ++ (dt ++ (d2 ++ rest)))).head? = some '-' := rfl
    rw [if_pos (Or.inr hsgn)]
    rcases hdt with rfl | ⟨rfl, rfl⟩
    · have A1 : List.takeWhile Char.isDigit (d1 ++ '.' :: (d2 ++ rest)) = d1 := by
        simpa using h3take
      have A2 : List.dropWhile Char.isDigit (d1 ++ '.' :: (d2 ++ rest)) =
          '.' :: (d2 ++ rest) := by
        simpa using h3drop
      simp [A1, A2, h5take]
    · have B1 : List.takeWhile Char.isDigit (d1 ++ rest) = d1 := by simpa using h3take
      have B2 : List.dropWhile Char.isDigit (d1 ++ rest) = rest := by simpa using h3drop
      have B3 : (rest.head? = some '.') = False := eq_false (by simpa using hdF rfl)
      simp [B1, B2, B3, hrest_take]

end PreCMG

namespace PreCMG

theorem abs_mul_natAbs {v : ℚ} (h1 : (v * 1000000).den = 1) :
    |v| * 1000000 = (((v * 1000000).num.natAbs : ℕ) : ℚ) := by
  have hm : (((v * 1000000).num : ℤ) : ℚ) = v * 1000000 := den_one_cast h1
  have h2 : |v * 1000000| = |v| * 1000000 := by rw [abs_mul]; norm_num
  have h3 : |(((v * 1000000).num : ℤ) : ℚ)| = (((v * 1000000).num.natAbs : ℕ) : ℚ) := by
    rw [Int.cast_natAbs, Int.cast_abs]
  rw [← h3, hm]
  exact h2.symm

theorem natAbs_le_of_abs_le {v : ℚ} (h1 : (v * 1000000).den = 1) (h2 : |v| ≤ 9000) :
    (v * 1000000).num.natAbs ≤ 9000000000 := by
  have habs := abs_mul_natAbs h1
  have hb : |v| * 1000000 ≤ 9000000000 := by
    have := mul_le_mul_of_nonneg_right h2 (by norm_num : (0 : ℚ) ≤ 1000000)
    linarith
  rw [habs] at hb
  exact_mod_cast hb

theorem cast_div_add_mod (n : ℕ) :
    ((n / 1000000 : ℕ) : ℚ) + ((n % 1000000 : ℕ) : ℚ) / 10 ^ (6 : ℕ) = (n : ℚ) / 1000000 := by
  have hd := Nat.div_add_mod n 1000000
  have hc : ((1000000 * (n / 1000000) + n % 1000000 : ℕ) : ℚ) = (n : ℚ) := by
    exact_mod_cast congrArg (Nat.cast : ℕ → ℚ) hd
  push_cast at hc
  field_simp
  linarith

theorem pyFloat_fmt6 {v : ℚ} (h1 : (v * 1000000).den = 1) (h2 : |v| ≤ 9000) :
    pyFloat (fmt6 v) = some v := by
  have habs := abs_mul_natAbs h1
  have hn9 := natAbs_le_of_abs_le h1 h2
  have hq16 : (v * 1000000).num.natAbs / 1000000 < 10 ^ 16 := by
    have := Nat.div_le_self (v * 1000000).num.natAbs 1000000
    omega
  have hr6 : (v * 1000000).num.natAbs % 1000000 < 10 ^ 6 :=
    Nat.mod_lt _ (by norm_num)
  have hA : ∀ c ∈ natDigits ((v * 1000000).num.natAbs / 1000000), c.isDigit = true :=
    fun c hc => natDigits_digits hc
  have hB : ∀ c ∈ pad6 ((v * 1000000).num.natAbs % 1000000), c.isDigit = true :=
    fun c hc => pad6_digits hc
  have hparseA : parseNat (natDigits ((v * 1000000).num.natAbs / 1000000)) =
      (v * 1000000).num.natAbs / 1000000 := natDigits_parse hq16
  have hparseB : parseNat (pad6 ((v * 1000000).num.natAbs % 1000000)) =
      (v * 1000000).num.natAbs % 1000000 := parseNat_pad6 hr6
  have hlenB : (pad6 ((v * 1000000).num.natAbs % 1000000)).length = 6 := pad6_len hr6
  have hval : (((v * 1000000).num.natAbs : ℕ) : ℚ) / 1000000 = |v| := by
    rw [← habs]
    field_simp
  rw [fmt6_eq h1]
  by_cases hv : v < 0
  · rw [if_pos hv]
    have hs := pyFloat_shape true (natDigits ((v * 1000000).num.natAbs / 1000000))
      (pad6 ((v * 1000000).num.natAbs % 1000000)) hA (natDigits_ne_nil _) hB
    simp only [eq_self_iff_true, if_true] at hs
    rw [hs, hparseA, hparseB, hlenB]
    congr 1
    rw [cast_div_add_mod, hval]
    rw [abs_of_neg hv]
    ring
  · rw [if_neg hv]
    have hs := pyFloat_shape false (natDigits ((v * 1000000).num.natAbs / 1000000))
      (pad6 ((v * 1000000).num.natAbs % 1000000)) hA (natDigits_ne_nil _) hB
    simp only [Bool.false_eq_true, if_neg, if_false] at hs
    simp only [List.nil_append] at hs
    rw [List.nil_append, hs, hparseA, hparseB, hlenB]
    congr 1
    rw [cast_div_add_mod, hval]
    rw [abs_of_nonneg (not_lt.mp hv)]
    ring

end PreCMG

namespace PreCMG

theorem decodeToken_formatToken {c : ℕ} {v : ℚ} (hc16 : c < 10 ^ 16)
    (h1 : (v * 1000000).den = 1) (h2 : |v| ≤ 9000) :
    decodeToken (formatToken c v) = .ok (List.replicate c v) := by
  have hcd := natDigits_ne_nil c
  have hcdD : ∀ x ∈ natDigits c, x.isDigit = true := fun x hx => natDigits_digits hx
  rw [formatToken]
  by_cases hz : iscloseB v 0 = true
  · have hv0 : v = 0 := (isclose_zero_iff h1).mp hz
    subst hv0
    rw [if_pos hz]
    by_cases h1c : c = 1
    · subst h1c
      rw [if_pos rfl]
      with_unfolding_all rfl
    · rw [if_neg h1c]
      have hm := mcr_general (natDigits c) [] ['0'] [] [] [] hcd hcdD (Or.inl rfl)
        (by intro x hx; simp only [List.mem_singleton] at hx; subst hx; decide)
        (by intro x hx; simp at hx)
        (Or.inr ⟨rfl, rfl⟩) (Or.inl (by simp)) (by intro x hx; simp at hx)
      simp only [List.nil_append, List.append_nil] at hm
      have hp0 : pyFloat ['0'] = some 0 := by with_unfolding_all rfl
      simp only [decodeToken, hm, hp0, natDigits_parse hc16]
  · rw [if_neg hz]
    by_cases h1c : c = 1
    · subst h1c
      rw [if_pos rfl]
      simp only [decodeToken, mcr_fmt6_none v, pyFloat_fmt6 h1 h2, List.replicate_one]
    · rw [if_neg h1c]
      rw [fmt6_eq h1]
      by_cases hv : v < 0
      · rw [if_pos hv]
        have hm := mcr_general (natDigits c) ['-']
          (natDigits ((v * 1000000).num.natAbs / 1000000)) ['.']
          (pad6 ((v * 1000000).num.natAbs % 1000000)) [] hcd hcdD
          (Or.inr (Or.inr rfl))
          (fun x hx => natDigits_digits hx)
          (fun x hx => pad6_digits hx)
          (Or.inl rfl) (Or.inr rfl) (by intro x hx; simp at hx)
        simp only [List.append_nil] at hm
        have halign : ((['-'] : List Char) ++ natDigits ((v * 1000000).num.natAbs / 1000000) ++
            '.' :: pad6 ((v * 1000000).num.natAbs % 1000000)) =
            ['-'] ++ (natDigits ((v * 1000000).num.natAbs / 1000000) ++
              (['.'] ++ pad6 ((v * 1000000).num.natAbs % 1000000))) := by
          simp
        rw [halign]
        have hpf : pyFloat (['-'] ++ (natDigits ((v * 1000000).num.natAbs / 1000000) ++
            (['.'] ++ pad6 ((v * 1000000).num.natAbs % 1000000)))) = some v := by
          have hx := pyFloat_fmt6 h1 h2
          rw [fmt6_eq h1, if_pos hv] at hx
          rw [← hx]
          congr 1
        simp only [decodeToken, hm, hpf, natDigits_parse hc16]
      · rw [if_neg hv]
        have hm := mcr_general (natDigits c) []
          (natDigits ((v * 1000000).num.natAbs / 1000000)) ['.']
          (pad6 ((v * 1000000).num.natAbs % 1000000)) [] hcd hcdD
          (Or.inl rfl)
          (fun x hx => natDigits_digits hx)
          (fun x hx => pad6_digits hx)
          (Or.inl rfl) (Or.inr rfl) (by intro x hx; simp at hx)
        simp only [List.nil_append, List.append_nil] at hm
        have halign : (([] : List Char) ++ natDigits ((v * 1000000).num.natAbs / 1000000) ++
            '.' :: pad6 ((v * 1000000).num.natAbs % 1000000)) =
            natDigits ((v * 1000000).num.natAbs / 1000000) ++
              (['.'] ++ pad6 ((v * 1000000).num.natAbs % 1000000)) := by
          simp
        rw [halign]
        have hpf : pyFloat (natDigits ((v * 1000000).num.natAbs / 1000000) ++
            (['.'] ++ pad6 ((v * 1000000).num.natAbs % 1000000))) = some v := by
          have hx := pyFloat_fmt6 h1 h2
          rw [fmt6_eq h1, if_neg hv] at hx
          rw [← hx]
          congr 1
        simp only [decodeToken, hm, hpf, natDigits_parse hc16]

end PreCMG

namespace PreCMG

theorem decodeTokens_append_ok {l1 l2 : List (List Char)} {a b : List ℚ}
    (h1 : decodeTokens l1 = .ok a) (h2 : decodeTokens l2 = .ok b) :
    decodeTokens (l1 ++ l2) = .ok (a ++ b) := by
  induction l1 generalizing a with
  | nil =>
    simp only [decodeTokens] at h1
    cases h1
    simpa using h2
  | cons t ts ih =>
    rw [decodeTokens] at h1
    cases hdt : decodeToken t with
    | error e => rw [hdt] at h1; simp at h1
    | ok vs =>
      rw [hdt] at h1
      cases hds : decodeTokens ts with
      | error e => rw [hds] at h1; simp at h1
      | ok rest =>
        rw [hds] at h1
        simp only [Except.ok.injEq] at h1
        subst h1
        rw [List.cons_append, decodeTokens, hdt, ih hds]
        simp

theorem runsAux_mem {p : ℚ × ℕ} : ∀ {rest : List ℚ} {v : ℚ} {c : ℕ},
    p ∈ runsAux v c rest → (p.1 = v ∨ p.1 ∈ rest) ∧ p.2 ≤ c + rest.length := by
  intro rest
  induction rest with
  | nil =>
    intro v c h
    simp only [runsAux, List.mem_singleton] at h
    subst h
    simp
  | cons b bs ih =>
    intro v c h
    rw [runsAux] at h
    by_cases hcl : iscloseB b v = true
    · rw [if_pos hcl] at h
      obtain ⟨h1, h2⟩ := ih h
      refine ⟨h1.imp id (List.mem_cons_of_mem b), ?_⟩
      simp only [List.length_cons]
      omega
    · rw [if_neg hcl] at h
      rcases List.mem_cons.mp h with rfl | h
      · exact ⟨Or.inl rfl, by simp⟩
      · obtain ⟨h1, h2⟩ := ih h
        refine ⟨Or.inr ?_, ?_⟩
        · rcases h1 with h1 | h1
          · simp [h1]
          · exact List.mem_cons_of_mem b h1
        · simp only [List.length_cons]
          omega

theorem runsAux_flatten : ∀ {rest : List ℚ} {v : ℚ} {c : ℕ},
    ((v * 1000000).den = 1 ∧ |v| ≤ 9000) →
    (∀ b ∈ rest, (b * 1000000).den = 1 ∧ |b| ≤ 9000) →
    ((runsAux v c rest).map fun p => List.replicate p.2 p.1).flatten =
      List.replicate c v ++ rest := by
  intro rest
  induction rest with
  | nil =>
    intro v c _ _
    simp [runsAux]
  | cons b bs ih =>
    intro v c hv hrest
    rw [runsAux]
    have hb := hrest b (List.mem_cons_self b bs)
    have htl : ∀ x ∈ bs, (x * 1000000).den = 1 ∧ |x| ≤ 9000 :=
      fun x hx => hrest x (List.mem_cons_of_mem b hx)
    by_cases hcl : iscloseB b v = true
    · have hbv : b = v := isclose_eq hb.1 hv.1 hv.2 hcl
      subst hbv
      rw [if_pos hcl, ih hv htl]
      rw [List.replicate_succ']
      simp
    · rw [if_neg hcl]
      simp only [List.map_cons, List.flatten_cons]
      rw [ih hb htl]
      simp

theorem roundtrip_tokens {l : List ℚ} (hlen : l.length ≤ 100000)
    (hval : ∀ x ∈ l, (x * 1000000).den = 1 ∧ |x| ≤ 9000) :
    decodeTokens (encodeTokens l) = .ok l := by
  cases l with
  | nil => rfl
  | cons v rest =>
    rw [encodeTokens, runs]
    have key : ∀ rs : List (ℚ × ℕ),
        (∀ p ∈ rs, (p.1 * 1000000).den = 1 ∧ |p.1| ≤ 9000 ∧ p.2 < 10 ^ 16) →
        decodeTokens (rs.map fun p => formatToken p.2 p.1) =
          .ok ((rs.map fun p => List.replicate p.2 p.1).flatten) := by
      intro rs
      induction rs with
      | nil => intro _; rfl
      | cons p ps ih =>
        intro h
        have hp := h p (List.mem_cons_self p ps)
        rw [List.map_cons, decodeTokens,
          decodeToken_formatToken hp.2.2 hp.1 hp.2.1,
          ih fun q hq => h q (List.mem_cons_of_mem p hq)]
        simp
    rw [key _ ?memb]
    case memb =>
      intro p hp
      obtain ⟨h1, h2⟩ := runsAux_mem hp
      have hmem : p.1 ∈ v :: rest := by
        rcases h1 with h1 | h1
        · simp [h1]
        · exact List.mem_cons_of_mem v h1
      have hv := hval p.1 hmem
      refine ⟨hv.1, hv.2, ?_⟩
      simp only [List.length_cons] at hlen
      omega
    rw [runsAux_flatten (hval v (List.mem_cons_self v rest))
      fun x hx => hval x (List.mem_cons_of_mem v hx)]
    simp

end PreCMG

namespace PreCMG

theorem splitWsAux_token {t : List Char} (ht : ∀ c ∈ t, c.isWhitespace = false) :
    ∀ (r acc : List Char), splitWsAux (t ++ r) acc = splitWsAux r (t.reverse ++ acc) := by
  induction t with
  | nil => intro r acc; simp
  | cons c cs ih =>
    intro r acc
    rw [List.cons_append, splitWsAux]
    rw [if_neg (by simp [ht c (List.mem_cons_self c cs)])]
    rw [ih (fun x hx => ht x (List.mem_cons_of_mem c hx)) r]
    congr 1
    simp

theorem splitWs_joinSp : ∀ {blk : List (List Char)}, tokensOK blk →
    splitWs (joinSp blk) = blk := by
  intro blk
  induction blk with
  | nil => intro _; rfl
  | cons t ts ih =>
    intro h
    have ht := h t (List.mem_cons_self t ts)
    cases ts with
    | nil =>
      show splitWsAux (joinSp [t]) [] = [t]
      rw [show joinSp [t] = t ++ [] by simp [joinSp]]
      rw [splitWsAux_token ht.2 [] []]
      rw [splitWsAux]
      rw [if_neg (by simp [List.reverse_eq_nil_iff, ht.1])]
      simp
    | cons t2 ts2 =>
      show splitWsAux (joinSp (t :: t2 :: ts2)) [] = t :: t2 :: ts2
      rw [show joinSp (t :: t2 :: ts2) = t ++ ' ' :: joinSp (t2 :: ts2) from rfl]
      rw [splitWsAux_token ht.2 (' ' :: joinSp (t2 :: ts2)) []]
      rw [splitWsAux]
      rw [if_pos (by decide)]
      rw [if_neg (by simp [List.reverse_eq_nil_iff, ht.1])]
      have := ih fun x hx => h x (List.mem_cons_of_mem t hx)
      rw [show splitWsAux (joinSp (t2 :: ts2)) [] = splitWs (joinSp (t2 :: ts2)) from rfl, this]
      simp

theorem joinSp_ne_nil {blk : List (List Char)} (h : tokensOK blk) (hne : blk ≠ []) :
    joinSp blk ≠ [] := by
  obtain ⟨t, ts, rfl⟩ := List.exists_cons_of_ne_nil hne
  have ht := (h t (List.mem_cons_self t ts)).1
  cases ts with
  | nil => simpa [joinSp] using ht
  | cons t2 ts2 =>
    rw [show joinSp (t :: t2 :: ts2) = t ++ ' ' :: joinSp (t2 :: ts2) from rfl]
    simp

theorem joinSp_head? {t : List Char} {ts : List (List Char)} (ht : t ≠ []) :
    (joinSp (t :: ts)).head? = t.head? := by
  cases ts with
  | nil => rfl
  | cons t2 ts2 =>
    rw [show joinSp (t :: t2 :: ts2) = t ++ ' ' :: joinSp (t2 :: ts2) from rfl]
    rw [List.head?_append]
    obtain ⟨c, cs, rfl⟩ := List.exists_cons_of_ne_nil ht
    simp

theorem joinSp_getLast? : ∀ {blk : List (List Char)}, tokensOK blk → blk ≠ [] →
    ∃ t ∈ blk, (joinSp blk).getLast? = t.getLast? := by
  intro blk
  induction blk with
  | nil => intro _ h; exact absurd rfl h
  | cons t ts ih =>
    intro h _
    cases ts with
    | nil => exact ⟨t, List.mem_cons_self t [], rfl⟩
    | cons t2 ts2 =>
      obtain ⟨u, hu, hlast⟩ := ih (fun x hx => h x (List.mem_cons_of_mem t hx)) (by simp)
      refine ⟨u, List.mem_cons_of_mem t hu, ?_⟩
      rw [show joinSp (t :: t2 :: ts2) = t ++ ' ' :: joinSp (t2 :: ts2) from rfl]
      rw [List.getLast?_append]
      have hj : joinSp (t2 :: ts2) ≠ [] :=
        joinSp_ne_nil (fun x hx => h x (List.mem_cons_of_mem t hx)) (by simp)
      obtain ⟨c, cs, hc⟩ := List.exists_cons_of_ne_nil hj
      rw [hc]
      rw [List.getLast?_cons_cons]
      rw [← hc, hlast]
      have : u.getLast? ≠ none := by
        obtain ⟨d, ds, rfl⟩ := List.exists_cons_of_ne_nil (h u (List.mem_cons_of_mem t hu)).1
        simp
      cases hug : u.getLast? with
      | none => exact absurd hug this
      | some d => simp

theorem wsStrip_eq_self {s : List Char}
    (h1 : ∀ c, s.head? = some c → c.isWhitespace = false)
    (h2 : ∀ c, s.getLast? = some c → c.isWhitespace = false) :
    wsStrip s = s := by
  cases s with
  | nil => rfl
  | cons c cs =>
    rw [wsStrip]
    rw [List.dropWhile_cons, if_neg (by simp [h1 c rfl])]
    have hrev : (c :: cs).reverse ≠ [] := by simp
    obtain ⟨d, ds, hd⟩ := List.exists_cons_of_ne_nil hrev
    have hdlast : (c :: cs).getLast? = some d := by
      rw [← List.head?_reverse, hd]
      rfl
    rw [hd, List.dropWhile_cons, if_neg (by simp [h2 d hdlast])]
    rw [← hd]
    simp

end PreCMG

namespace PreCMG

theorem fmt6_nonws {v : ℚ} : ∀ x ∈ fmt6 v, x.isWhitespace = false := by
  intro x hx
  rcases fmt6_chars hx with rfl | rfl | h
  · decide
  · decide
  · exact (ne_of_isDigit h).2.2.2.2.2.2

theorem fmt6_head {v : ℚ} : ∀ x, (fmt6 v).head? = some x → x = '-' ∨ x.isDigit = true := by
  intro x hx
  rw [fmt6_shape] at hx
  by_cases hv : v < 0
  · rw [if_pos hv] at hx
    simp at hx
    exact Or.inl hx.symm
  · rw [if_neg hv] at hx
    simp only [List.nil_append] at hx
    obtain ⟨d, ds, hd⟩ :=
      List.exists_cons_of_ne_nil (natDigits_ne_nil (rhe6 (|v| * 1000000) / 1000000))
    rw [hd] at hx
    simp only [List.cons_append, List.head?_cons, Option.some.injEq] at hx
    right
    exact hx ▸ natDigits_digits (hd ▸ List.mem_cons_self d ds)

theorem fmt6_ne_nil (v : ℚ) : fmt6 v ≠ [] := by
  rw [fmt6_shape]
  intro h
  rcases List.append_eq_nil.mp h with ⟨-, h2⟩
  exact List.cons_ne_nil _ _ h2

theorem formatToken_ne_nil (c : ℕ) (v : ℚ) : formatToken c v ≠ [] := by
  rw [formatToken]
  by_cases hz : iscloseB v 0 = true <;> by_cases h1 : c = 1 <;>
    simp [hz, h1, natDigits_ne_nil, fmt6_ne_nil]

theorem formatToken_nonws (c : ℕ) (v : ℚ) :
    ∀ x ∈ formatToken c v, x.isWhitespace = false := by
  intro x hx
  rw [formatToken] at hx
  have hnd : ∀ y ∈ natDigits c, y.isWhitespace = false :=
    fun y hy => (ne_of_isDigit (natDigits_digits hy)).2.2.2.2.2.2
  by_cases hz : iscloseB v 0 = true <;> by_cases h1 : c = 1 <;>
    simp only [hz, h1, if_pos, if_neg, if_true, if_false] at hx
  · obtain rfl : x = '0' := by simpa using hx
    decide
  · simp only [List.mem_append, List.mem_cons, List.mem_singleton,
      List.not_mem_nil, or_false] at hx
    rcases hx with hx | rfl | rfl
    · exact hnd x hx
    · decide
    · decide
  · exact fmt6_nonws x hx
  · rcases List.mem_append.mp hx with hx | hx
    · exact hnd x hx
    · rcases List.mem_cons.mp hx with rfl | hx
      · decide
      · exact fmt6_nonws x hx

theorem formatToken_head (c : ℕ) (v : ℚ) :
    ∀ x, (formatToken c v).head? = some x → x ≠ '*' := by
  intro x hx
  rw [formatToken] at hx
  have hnd : ∀ y, (natDigits c).head? = some y → y ≠ '*' := by
    intro y hy
    have : y ∈ natDigits c := List.mem_of_mem_head? hy
    exact (ne_of_isDigit (natDigits_digits this)).1
  obtain ⟨d, ds, hd⟩ := List.exists_cons_of_ne_nil (natDigits_ne_nil c)
  by_cases hz : iscloseB v 0 = true
  · rw [if_pos hz] at hx
    by_cases h1 : c = 1
    · rw [if_pos h1] at hx
      simp at hx
      subst hx; decide
    · rw [if_neg h1, hd] at hx
      simp only [List.cons_append, List.head?_cons, Option.some.injEq] at hx
      exact hx ▸ hnd d (hd ▸ rfl)
  · rw [if_neg hz] at hx
    by_cases h1 : c = 1
    · rw [if_pos h1] at hx
      rcases fmt6_head x hx with rfl | h
      · decide
      · exact (ne_of_isDigit h).1
    · rw [if_neg h1, hd] at hx
      simp only [List.cons_append, List.head?_cons, Option.some.injEq] at hx
      exact hx ▸ hnd d (hd ▸ rfl)

theorem encodeTokens_tokensOK (l : List ℚ) : tokensOK (encodeTokens l) := by
  intro t ht
  rw [encodeTokens] at ht
  obtain ⟨p, _, rfl⟩ := List.mem_map.mp ht
  exact ⟨formatToken_ne_nil p.2 p.1, formatToken_nonws p.2 p.1⟩

theorem encodeTokens_headOK (l : List ℚ) :
    ∀ t ∈ encodeTokens l, ∀ x, t.head? = some x → x ≠ '*' := by
  intro t ht
  rw [encodeTokens] at ht
  obtain ⟨p, _, rfl⟩ := List.mem_map.mp ht
  exact formatToken_head p.2 p.1

theorem joinSp_append_single {blk : List (List Char)} (hne : blk ≠ []) (t : List Char) :
    joinSp (blk ++ [t]) = joinSp blk ++ ' ' :: t := by
  induction blk with
  | nil => exact absurd rfl hne
  | cons u us ih =>
    cases us with
    | nil => rfl
    | cons u2 us2 =>
      rw [show (u :: u2 :: us2) ++ [t] = u :: ((u2 :: us2) ++ [t]) from rfl]
      rw [show joinSp (u :: ((u2 :: us2) ++ [t])) =
          u ++ ' ' :: joinSp ((u2 :: us2) ++ [t]) from rfl]
      rw [ih (by simp)]
      rw [show joinSp (u :: u2 :: us2) = u ++ ' ' :: joinSp (u2 :: us2) from rfl]
      simp

end PreCMG

namespace PreCMG

theorem wrapAux_lines {allT : List (List Char)} :
    ∀ (ts : List (List Char)) (cur : List Char) (m : ℕ),
    (cur = [] ∨ cur.length ≤ m ∨ cur ∈ allT) → (∀ t ∈ ts, t ∈ allT) →
    ∀ line ∈ wrapAux m cur ts, line.length ≤ m ∨ line ∈ allT := by
  intro ts
  induction ts with
  | nil =>
    intro cur m hcur _ line hline
    rw [wrapAux] at hline
    by_cases hc : cur = []
    · rw [if_pos hc] at hline
      simp at hline
    · rw [if_neg hc] at hline
      simp only [List.mem_singleton] at hline
      subst hline
      exact hcur.resolve_left hc
  | cons t ts ih =>
    intro cur m hcur hsub line hline
    have hsub' : ∀ u ∈ ts, u ∈ allT := fun u hu => hsub u (List.mem_cons_of_mem t hu)
    have htall : t ∈ allT := hsub t (List.mem_cons_self t ts)
    rw [wrapAux] at hline
    by_cases hg : cur ≠ [] ∧ m < cur.length + 1 + t.length
    · rw [if_pos hg] at hline
      rcases List.mem_cons.mp hline with rfl | hline
      · exact hcur.resolve_left hg.1
      · exact ih t m (Or.inr (Or.inr htall)) hsub' line hline
    · rw [if_neg hg] at hline
      refine ih _ m ?_ hsub' line hline
      by_cases hc : cur = []
      · rw [if_pos hc]
        exact Or.inr (Or.inr htall)
      · rw [if_neg hc]
        have hlen : cur.length + 1 + t.length ≤ m := by
          rcases not_and_or.mp hg with h | h
          · exact absurd hc (by simpa using h)
          · omega
        refine Or.inr (Or.inl ?_)
        simp only [List.length_append, List.length_cons]
        omega

theorem wrapAux_flatten : ∀ (ts : List (List Char)) (blk : List (List Char)) (m : ℕ),
    tokensOK ts → tokensOK blk → blk ≠ [] →
    ((wrapAux m (joinSp blk) ts).map splitWs).flatten = blk ++ ts := by
  intro ts
  induction ts with
  | nil =>
    intro blk m _ hblk hne
    rw [wrapAux, if_neg (joinSp_ne_nil hblk hne)]
    simp [splitWs_joinSp hblk]
  | cons t ts ih =>
    intro blk m hts hblk hne
    have ht := hts t (List.mem_cons_self t ts)
    have hts' : tokensOK ts := fun u hu => hts u (List.mem_cons_of_mem t hu)
    rw [wrapAux]
    by_cases hg : joinSp blk ≠ [] ∧ m < (joinSp blk).length + 1 + t.length
    · rw [if_pos hg]
      rw [List.map_cons, List.flatten_cons, splitWs_joinSp hblk]
      have hone : tokensOK [t] := by
        intro u hu
        rw [List.mem_singleton] at hu
        subst hu
        exact ht
      have := ih [t] m hts' hone (by simp)
      rw [show joinSp [t] = t from rfl] at this
      rw [this]
      simp
    · rw [if_neg hg]
      rw [if_neg (joinSp_ne_nil hblk hne)]
      rw [← joinSp_append_single hne t]
      have happ : tokensOK (blk ++ [t]) := by
        intro u hu
        rcases List.mem_append.mp hu with hu | hu
        · exact hblk u hu
        · rw [List.mem_singleton] at hu
          subst hu
          exact ht
      rw [ih (blk ++ [t]) m hts' happ (by simp)]
      simp

theorem decodeTokens_append_inv {l1 l2 : List (List Char)} {vs : List ℚ}
    (h : decodeTokens (l1 ++ l2) = .ok vs) :
    ∃ a b, decodeTokens l1 = .ok a ∧ decodeTokens l2 = .ok b ∧ vs = a ++ b := by
  induction l1 generalizing vs with
  | nil => exact ⟨[], vs, rfl, by simpa using h, by simp⟩
  | cons t ts ih =>
    rw [List.cons_append, decodeTokens] at h
    cases hdt : decodeToken t with
    | error e => rw [hdt] at h; simp at h
    | ok xs =>
      rw [hdt] at h
      cases hds : decodeTokens (ts ++ l2) with
      | error e => rw [hds] at h; simp at h
      | ok ys =>
        rw [hds] at h
        simp only [Except.ok.injEq] at h
        subst h
        obtain ⟨a, b, ha, hb, rfl⟩ := ih hds
        exact ⟨xs ++ a, b, by rw [decodeTokens, hdt, ha], hb, by simp⟩

theorem decompress_cons_line {blk rest : List (List Char)} {vs vs2 : List ℚ}
    (hblk : tokensOK blk) (hne : blk ≠ [])
    (hhead : ∀ t ∈ blk, ∀ x, t.head? = some x → x ≠ '*')
    (h1 : decodeTokens blk = .ok vs)
    (h2 : decompress_cmg_format_to_array rest = .ok vs2) :
    decompress_cmg_format_to_array (joinSp blk :: rest) = .ok (vs ++ vs2) := by
  obtain ⟨t, ts, rfl⟩ := List.exists_cons_of_ne_nil hne
  have ht := hblk t (List.mem_cons_self t ts)
  have hstrip : wsStrip (joinSp (t :: ts)) = joinSp (t :: ts) := by
    apply wsStrip_eq_self
    · intro c hc
      rw [joinSp_head? ht.1] at hc
      exact ht.2 c (List.mem_of_mem_head? hc)
    · intro c hc
      obtain ⟨u, hu, hlast⟩ := joinSp_getLast? hblk (by simp)
      rw [hlast] at hc
      exact (hblk u hu).2 c (List.mem_of_mem_getLast? hc)
  have hcomm : ¬(wsStrip (joinSp (t :: ts)) = [] ∨
      (wsStrip (joinSp (t :: ts))).take 2 = ['*', '*']) := by
    rw [hstrip]
    rintro (hc | hc)
    · exact joinSp_ne_nil hblk (by simp) hc
    · obtain ⟨d, ds, hd⟩ := List.exists_cons_of_ne_nil (joinSp_ne_nil hblk
        (List.cons_ne_nil t ts))
      rw [hd] at hc
      simp only [List.take_succ_cons, List.cons.injEq] at hc
      have hdh : (joinSp (t :: ts)).head? = some d := by rw [hd]; rfl
      rw [joinSp_head? ht.1] at hdh
      exact hhead t (List.mem_cons_self t ts) d hdh hc.1
  rw [decompress_cmg_format_to_array]
  rw [if_neg hcomm]
  rw [hstrip, splitWs_joinSp hblk, h1, h2]

theorem wrapAux_decode : ∀ (ts blk : List (List Char)) (m : ℕ) (vs : List ℚ),
    tokensOK ts → tokensOK blk → blk ≠ [] →
    (∀ t ∈ blk, ∀ x, t.head? = some x → x ≠ '*') →
    (∀ t ∈ ts, ∀ x, t.head? = some x → x ≠ '*') →
    decodeTokens (blk ++ ts) = .ok vs →
    decompress_cmg_format_to_array (wrapAux m (joinSp blk) ts) = .ok vs := by
  intro ts
  induction ts with
  | nil =>
    intro blk m vs _ hblk hne hheadb _ hdec
    rw [List.append_nil] at hdec
    rw [wrapAux, if_neg (joinSp_ne_nil hblk hne)]
    have := @decompress_cons_line _ [] _ _ hblk hne hheadb hdec rfl
    simpa using this
  | cons t ts ih =>
    intro blk m vs hts hblk hne hheadb hheadt hdec
    have ht := hts t (List.mem_cons_self t ts)
    have hts' : tokensOK ts := fun u hu => hts u (List.mem_cons_of_mem t hu)
    have hheadt' : ∀ u ∈ ts, ∀ x, u.head? = some x → x ≠ '*' :=
      fun u hu => hheadt u (List.mem_cons_of_mem t hu)
    rw [wrapAux]
    by_cases hg : joinSp blk ≠ [] ∧ m < (joinSp blk).length + 1 + t.length
    · rw [if_pos hg]
      obtain ⟨a, b, ha, hb, rfl⟩ := decodeTokens_append_inv hdec
      have hone : tokensOK [t] := by
        intro u hu
        rw [List.mem_singleton] at hu
        subst hu
        exact ht
      have honeh : ∀ u ∈ [t], ∀ x, u.head? = some x → x ≠ '*' := by
        intro u hu
        rw [List.mem_singleton] at hu
        subst hu
        exact hheadt u (List.mem_cons_self u ts)
      have hrec := ih [t] m b hts' hone (by simp) honeh hheadt' (by simpa using hb)
      rw [show joinSp [t] = t from rfl] at hrec
      exact decompress_cons_line hblk hne hheadb ha hrec
    · rw [if_neg hg]
      rw [if_neg (joinSp_ne_nil hblk hne)]
      rw [← joinSp_append_single hne t]
      have happ : tokensOK (blk ++ [t]) := by
        intro u hu
        rcases List.mem_append.mp hu with hu | hu
        · exact hblk u hu
        · rw [List.mem_singleton] at hu
          subst hu
          exact ht
      have happh : ∀ u ∈ blk ++ [t], ∀ x, u.head? = some x → x ≠ '*' := by
        intro u hu
        rcases List.mem_append.mp hu with hu | hu
        · exact hheadb u hu
        · rw [List.mem_singleton] at hu
          subst hu
          exact hheadt u (List.mem_cons_self u ts)
      refine ih (blk ++ [t]) m vs hts' happ (by simp) happh hheadt' ?_
      rw [List.append_assoc]
      simpa using hdec

end PreCMG

namespace PreCMG

theorem runsAux_ne_nil : ∀ (rest : List ℚ) (v : ℚ) (c : ℕ), runsAux v c rest ≠ [] := by
  intro rest
  induction rest with
  | nil => intro v c; simp [runsAux]
  | cons b bs ih =>
    intro v c
    rw [runsAux]
    by_cases hcl : iscloseB b v = true
    · rw [if_pos hcl]; exact ih v (c + 1)
    · rw [if_neg hcl]; simp

theorem encodeTokens_eq_nil {x : List ℚ} (h : encodeTokens x = []) : x = [] := by
  cases x with
  | nil => rfl
  | cons v rest =>
    rw [encodeTokens, runs] at h
    exact absurd (List.map_eq_nil_iff.mp h) (runsAux_ne_nil rest v 1)

/-- C7: every line of the compressed output fits within the maximum width
except a line that is a single token longer than the width (tokens are never
split), and splitting the produced lines back into whitespace tokens yields
exactly the emitted token sequence in order. -/
theorem c7_line_wrapping (x : List ℚ) (w : ℕ) :
    (∀ line ∈ compress_array_to_cmg_format x w,
      line.length ≤ w ∨ (line ∈ encodeTokens x ∧ w < line.length)) ∧
    ((compress_array_to_cmg_format x w).map splitWs).flatten = encodeTokens x := by
  constructor
  · intro line hline
    rw [compress_array_to_cmg_format] at hline
    have := @wrapAux_lines (encodeTokens x) (encodeTokens x) [] w
      (Or.inl rfl) (fun t ht => ht) line hline
    rcases this with h | h
    · exact Or.inl h
    · by_cases hlen : line.length ≤ w
      · exact Or.inl hlen
      · exact Or.inr ⟨h, by omega⟩
  · rw [compress_array_to_cmg_format]
    cases henc : encodeTokens x with
    | nil => simp [wrapAux]
    | cons t ts =>
      rw [wrapAux]
      rw [if_neg (by simp)]
      rw [if_pos rfl]
      have hok := encodeTokens_tokensOK x
      rw [henc] at hok
      have hone : tokensOK [t] := by
        intro u hu
        rw [List.mem_singleton] at hu
        subst hu
        exact hok u (List.mem_cons_self u ts)
      have := wrapAux_flatten ts [t] w
        (fun u hu => hok u (List.mem_cons_of_mem t hu)) hone (by simp)
      rw [show joinSp [t] = t from rfl] at this
      rw [this]
      simp

/-- Witness for C7 at the concrete array of the compression example. -/
theorem c7_witness :
    ((String.toList "3*0 2*1.000000 2.500000").length ≤ 80 ∨
      (String.toList "3*0 2*1.000000 2.500000" ∈ encodeTokens [0, 0, 0, 1, 1, 5/2] ∧
        80 < (String.toList "3*0 2*1.000000 2.500000").length)) ∧
    ((compress_array_to_cmg_format [0, 0, 0, 1, 1, 5/2] 80).map splitWs).flatten =
      encodeTokens [0, 0, 0, 1, 1, 5/2] := by
  constructor
  · refine (c7_line_wrapping [0, 0, 0, 1, 1, 5/2] 80).1 _ ?_
    rw [(by with_unfolding_all rfl : compress_array_to_cmg_format [0, 0, 0, 1, 1, 5/2] 80 =
      [String.toList "3*0 2*1.000000 2.500000"])]
    simp
  · exact (c7_line_wrapping [0, 0, 0, 1, 1, 5/2] 80).2

/-- C1 (amended): on arrays whose values are exact 6-decimal quantities of
magnitude at most 9000 — the bounded range the encoder's `%.6f` format and
tolerance settings can reproduce exactly — decoding the document produced by
encoding is the identity, for any positive line width and length up to
`10^5`. -/
theorem c1_roundtrip_amended (x : List ℚ) (w : ℕ) (_hw : 1 ≤ w)
    (hlen : x.length ≤ 100000)
    (hval : ∀ v ∈ x, (v * 1000000).den = 1 ∧ |v| ≤ 9000) :
    decompress_cmg_format_to_array (cmgDocument x w) = .ok x := by
  rw [cmgDocument]
  have hhdr : decompress_cmg_format_to_array
      (String.toList "**FULL_POROSITY_ALL" :: compress_array_to_cmg_format x w) =
      decompress_cmg_format_to_array (compress_array_to_cmg_format x w) := by
    rw [decompress_cmg_format_to_array]
    rw [if_pos (Or.inr (by rfl))]
  rw [hhdr]
  have htoks := roundtrip_tokens hlen hval
  rw [compress_array_to_cmg_format]
  cases henc : encodeTokens x with
  | nil =>
    have hx : x = [] := encodeTokens_eq_nil henc
    subst hx
    rfl
  | cons t ts =>
    rw [henc] at htoks
    rw [wrapAux]
    rw [if_neg (by simp)]
    rw [if_pos rfl]
    have hok := encodeTokens_tokensOK x
    have hhead := encodeTokens_headOK x
    rw [henc] at hok hhead
    have hone : tokensOK [t] := by
      intro u hu
      rw [List.mem_singleton] at hu
      subst hu
      exact hok u (List.mem_cons_self u ts)
    have honeh : ∀ u ∈ [t], ∀ y, u.head? = some y → y ≠ '*' := by
      intro u hu
      rw [List.mem_singleton] at hu
      subst hu
      exact hhead u (List.mem_cons_self u ts)
    have := wrapAux_decode ts [t] w x
      (fun u hu => hok u (List.mem_cons_of_mem t hu)) hone (by simp) honeh
      (fun u hu => hhead u (List.mem_cons_of_mem t hu)) (by simpa using htoks)
    rw [show joinSp [t] = t from rfl] at this
    exact this

/-- Witness for the amended C1 at the compression-example array. -/
theorem c1_witness :
    decompress_cmg_format_to_array (cmgDocument [0, 0, 0, 1, 1, 5/2] 80) =
      .ok [0, 0, 0, 1, 1, 5/2] :=
  c1_roundtrip_amended [0, 0, 0, 1, 1, 5/2] 80 (by norm_num) (by simp)
    (by with_unfolding_all decide)

end PreCMG

namespace PreCMG

/-- C5 (amended): a token that matches neither the count-run pattern nor a
bare float is skipped silently — removing it from the token stream does not
change the decoded values, and decoding continues with the surrounding
tokens.  (A token that does match the count-run pattern but whose value
group fails to parse aborts decoding instead; see the counterexample.) -/
theorem c5_skip_amended (t : List Char) (pre post : List (List Char))
    (h1 : matchCountRun t = none) (h2 : pyFloat t = none) :
    decodeTokens (pre ++ t :: post) = decodeTokens (pre ++ post) := by
  have hstep : decodeTokens (t :: post) = decodeTokens post := by
    rw [decodeTokens]
    have hd : decodeToken t = .ok [] := by
      rw [decodeToken, h1, h2]
    rw [hd]
    cases hp : decodeTokens post <;> simp
  induction pre with
  | nil => simpa using hstep
  | cons u us ih =>
    rw [List.cons_append, List.cons_append, decodeTokens, decodeTokens, ih]

/-- Witness for the amended C5: the token `abc` is skipped between two
well-formed tokens. -/
theorem c5_witness :
    decodeTokens ([String.toList "1.5"] ++ String.toList "abc" :: [String.toList "2*0"]) =
      decodeTokens ([String.toList "1.5"] ++ [String.toList "2*0"]) :=
  c5_skip_amended (String.toList "abc") [String.toList "1.5"] [String.toList "2*0"]
    (by with_unfolding_all rfl) (by with_unfolding_all rfl)

/-- C6 (amended): when token processing completes without a token-level
error, `read_cmg_format_file` fails with the empty-result error exactly when
the decoded sequence is empty, and returns the sequence unchanged otherwise.
(A count-run token with an unparseable value group aborts with a different
error before the emptiness check; see the counterexample.) -/
theorem c6_empty_result_amended (lines : List (List Char)) (vs : List ℚ)
    (h : decompress_cmg_format_to_array lines = .ok vs) :
    (vs = [] → read_cmg_format_file lines = .error .noNumeric) ∧
    (vs ≠ [] → read_cmg_format_file lines = .ok vs) := by
  constructor
  · rintro rfl
    rw [read_cmg_format_file, h]
  · intro hne
    rw [read_cmg_format_file, h]
    cases vs with
    | nil => exact absurd rfl hne
    | cons a l => rfl

/-- Witness for the amended C6: a one-value document decodes without error. -/
theorem c6_witness :
    read_cmg_format_file [String.toList "1.5"] = .ok [3/2] :=
  (c6_empty_result_amended [String.toList "1.5"] [3/2]
    (by with_unfolding_all rfl)).2 (by simp)

/-- C2 (amended): the encoder's equality predicate is numpy's `isclose` with
the default absolute term, `|a - b| <= 1e-8 + 1e-10 * |b|`; a neighbouring
element extends a run exactly when it satisfies this predicate against the
run's value, and a run is rendered with the integer-zero token (no decimal
point) exactly when its value satisfies `|v| <= 1e-8` — not only for exact
zero. -/
theorem c2_tolerance_amended (a v : ℚ) :
    (iscloseB a v = true ↔ |a - v| ≤ 1/100000000 + 1/10000000000 * |v|) ∧
    (iscloseB a v = true → runs [v, a] = [(v, 2)]) ∧
    (iscloseB a v = false → runs [v, a] = [(v, 1), (a, 1)]) ∧
    (∀ c : ℕ, ('.' ∉ formatToken c v ↔ |v| ≤ 1/100000000)) := by
  refine ⟨?_, ?_, ?_, ?_⟩
  · simp [iscloseB, atol, rtol]
  · intro h
    rw [runs, runsAux, if_pos h]
    rfl
  · intro h
    rw [runs, runsAux, if_neg (by simp [h])]
    rfl
  · intro c
    have hz : iscloseB v 0 = true ↔ |v| ≤ 1/100000000 := by
      rw [isclose_iff]
      simp [atol, rtol]
    constructor
    · intro hdot
      by_contra hgt
      have hcl : iscloseB v 0 = false := by
        rcases Bool.eq_false_or_eq_true (iscloseB v 0) with h | h
        · exact absurd (hz.mp h) hgt
        · exact h
      apply hdot
      rw [formatToken, hcl]
      simp only [Bool.false_eq_true, if_false]
      have hmem : '.' ∈ fmt6 v := by
        rw [fmt6_shape]
        simp
      by_cases h1 : c = 1
      · rw [if_pos h1]
        exact hmem
      · rw [if_neg h1]
        simp only [List.mem_append, List.mem_cons]
        right
        right
        exact hmem
    · intro hle
      have hcl : iscloseB v 0 = true := hz.mpr hle
      rw [formatToken, hcl]
      simp only [if_true]
      by_cases h1 : c = 1
      · rw [if_pos h1]
        simp
      · rw [if_neg h1]
        intro hmem
        rcases List.mem_append.mp hmem with hmem | hmem
        · exact absurd (natDigits_digits hmem) (by decide)
        · simp at hmem

/-- Witness for the amended C2 at `a = 10^-9`, `v = 0`: the run is merged and
the zero token applies. -/
theorem c2_witness :
    runs [(0 : ℚ), 1/1000000000] = [((0 : ℚ), 2)] ∧
    ('.' ∉ formatToken 2 (0 : ℚ) ↔ |(0 : ℚ)| ≤ 1/100000000) :=
  ⟨(c2_tolerance_amended (1/1000000000) 0).2.1 (by with_unfolding_all rfl),
   (c2_tolerance_amended (1/1000000000) 0).2.2.2 2⟩

end PreCMG

namespace PreCMG

theorem fill_go_length (ps : List (ℤ × ℚ)) : ∀ arr : List ℚ,
    (ps.foldl (fun a p => a.set (p.1 - 1).toNat p.2) arr).length = arr.length := by
  induction ps with
  | nil => intro arr; rfl
  | cons q qs ih =>
    intro arr
    rw [List.foldl_cons, ih]
    exact List.length_set arr _ _

theorem fill_go_untouched (ps : List (ℤ × ℚ)) : ∀ (arr : List ℚ) (p : ℕ),
    (∀ pr ∈ ps, (pr.1 - 1).toNat ≠ p) →
    (ps.foldl (fun a q => a.set (q.1 - 1).toNat q.2) arr)[p]? = arr[p]? := by
  induction ps with
  | nil => intro arr p _; rfl
  | cons q qs ih =>
    intro arr p h
    rw [List.foldl_cons, ih _ _ fun pr hpr => h pr (List.mem_cons_of_mem q hpr)]
    exact List.getElem?_set_ne (h q (List.mem_cons_self q qs))

theorem fill_go_last (ps : List (ℤ × ℚ)) : ∀ (arr : List ℚ) (k : ℕ) (hk : k < ps.length),
    (∀ pr ∈ ps, 1 ≤ pr.1) →
    (∀ k' (hk' : k' < ps.length), k < k' → (ps.get ⟨k', hk'⟩).1 ≠ (ps.get ⟨k, hk⟩).1) →
    ((ps.get ⟨k, hk⟩).1 - 1).toNat < arr.length →
    (ps.foldl (fun a q => a.set (q.1 - 1).toNat q.2) arr)[((ps.get ⟨k, hk⟩).1 - 1).toNat]? =
      some (ps.get ⟨k, hk⟩).2 := by
  induction ps with
  | nil => intro arr k hk; exact absurd hk (by simp)
  | cons q qs ih =>
    intro arr k hk hpos hlater hidx
    cases k with
    | zero =>
      rw [List.foldl_cons]
      have huntouched : ∀ pr ∈ qs, (pr.1 - 1).toNat ≠ ((q.1 - 1).toNat) := by
        intro pr hpr
        obtain ⟨⟨j, hj⟩, hget⟩ := List.mem_iff_get.mp hpr
        have hne := hlater (j + 1) (by simpa using hj) (Nat.succ_pos j)
        rw [List.get_cons_succ, hget] at hne
        have hne2 : pr.1 ≠ q.1 := hne
        have h1 : 1 ≤ pr.1 := hpos pr (List.mem_cons_of_mem q hpr)
        have h2 : 1 ≤ q.1 := hpos q (List.mem_cons_self q qs)
        omega
      have hidx2 : (q.1 - 1).toNat < arr.length := hidx
      show (List.foldl (fun a r => a.set (r.1 - 1).toNat r.2)
        (arr.set (q.1 - 1).toNat q.2) qs)[(q.1 - 1).toNat]? = some q.2
      rw [fill_go_untouched qs _ _ huntouched]
      exact List.getElem?_set_self hidx2
    | succ k' =>
      rw [List.foldl_cons]
      have hk2 : k' < qs.length := by simpa using hk
      have := ih (arr.set (q.1 - 1).toNat q.2) k' hk2
        (fun pr hpr => hpos pr (List.mem_cons_of_mem q hpr))
        (fun k'' hk'' hlt => by
          have := hlater (k'' + 1) (by simpa using hk'') (by omega)
          simpa using this)
        (by
          rw [List.length_set]
          simpa using hidx)
      simpa using this

theorem npMin_ge {lo : ℤ} : ∀ (is : List ℤ) (i : ℤ), lo ≤ i → (∀ x ∈ is, lo ≤ x) →
    lo ≤ npMin i is := by
  intro is
  induction is with
  | nil => intro i hi _; exact hi
  | cons x xs ih =>
    intro i hi h
    rw [npMin, List.foldl_cons]
    exact ih (min i x) (le_min hi (h x (List.mem_cons_self x xs)))
      fun y hy => h y (List.mem_cons_of_mem x hy)

theorem npMax_le {hi : ℤ} : ∀ (is : List ℤ) (i : ℤ), i ≤ hi → (∀ x ∈ is, x ≤ hi) →
    npMax i is ≤ hi := by
  intro is
  induction is with
  | nil => intro i h _; exact h
  | cons x xs ih =>
    intro i h hall
    rw [npMax, List.foldl_cons]
    exact ih (max i x) (max_le h (hall x (List.mem_cons_self x xs)))
      fun y hy => hall y (List.mem_cons_of_mem x hy)

/-- C4 (amended): for every valid scatter input with at least one id
(equal-length nonempty ids and values, each id in `[1, totalCells]`) the
scatter succeeds; every position not of the form `id - 1` holds exactly
`0.0`, and each position `id - 1` holds the value paired with the last
occurrence of that id.  (On an empty id list `np.min` raises instead; see
the counterexample.) -/
theorem c4_zero_fill_amended (ids : List ℤ) (values : List ℚ) (total : ℕ)
    (hne : ids ≠ []) (hlen : ids.length = values.length)
    (hrange : ∀ i ∈ ids, 1 ≤ i ∧ i ≤ (total : ℤ)) :
    ∃ arr, generate_full_porosity ids values total = .ok arr ∧
      arr.length = total ∧
      (∀ p, p < total → (∀ i ∈ ids, i - 1 ≠ (p : ℤ)) → arr[p]? = some 0) ∧
      (∀ k (hk : k < (ids.zip values).length),
        (∀ k' (hk' : k' < (ids.zip values).length), k < k' →
          ((ids.zip values).get ⟨k', hk'⟩).1 ≠ ((ids.zip values).get ⟨k, hk⟩).1) →
        arr[(((ids.zip values).get ⟨k, hk⟩).1 - 1).toNat]? =
          some ((ids.zip values).get ⟨k, hk⟩).2) := by
  obtain ⟨i, is, rfl⟩ := List.exists_cons_of_ne_nil hne
  have hok : generate_full_porosity (i :: is) values total =
      .ok (fillActive total ((i :: is).zip values)) := by
    rw [generate_full_porosity]
    rw [if_neg (by simp [hlen])]
    have hm : 1 ≤ npMin i is :=
      npMin_ge is i (hrange i (List.mem_cons_self i is)).1
        fun x hx => (hrange x (List.mem_cons_of_mem i hx)).1
    have hM : npMax i is ≤ (total : ℤ) :=
      npMax_le is i (hrange i (List.mem_cons_self i is)).2
        fun x hx => (hrange x (List.mem_cons_of_mem i hx)).2
    rw [if_neg (by push_neg; omega)]
  refine ⟨fillActive total ((i :: is).zip values), hok, ?_, ?_, ?_⟩
  · rw [fillActive, fill_go_length]
    exact List.length_replicate total 0
  · intro p hp hnot
    rw [fillActive, fill_go_untouched]
    · simp [List.getElem?_replicate, hp]
    · intro pr hpr
      have hid := (List.of_mem_zip hpr).1
      have h1 := (hrange pr.1 hid).1
      have h2 := hnot pr.1 hid
      omega
  · intro k hk hlast
    have hmem : ((i :: is).zip values).get ⟨k, hk⟩ ∈ (i :: is).zip values :=
      List.get_mem _ _ hk
    have hid := (List.of_mem_zip hmem).1
    have h1 := (hrange _ hid).1
    have h2 := (hrange _ hid).2
    rw [fillActive]
    apply fill_go_last
    · intro pr hpr
      exact (hrange pr.1 (List.of_mem_zip hpr).1).1
    · exact hlast
    · rw [List.length_replicate]
      omega

/-- Witness for the amended C4 at a concrete scatter. -/
theorem c4_witness :
    ∃ arr, generate_full_porosity [2] [5] 3 = .ok arr ∧
      arr.length = 3 ∧
      (∀ p : ℕ, p < 3 → (∀ i ∈ [(2 : ℤ)], i - 1 ≠ (p : ℤ)) → arr[p]? = some 0) ∧
      (∀ k (hk : k < (([2] : List ℤ).zip ([5] : List ℚ)).length),
        (∀ k' (hk' : k' < (([2] : List ℤ).zip ([5] : List ℚ)).length), k < k' →
          ((([2] : List ℤ).zip ([5] : List ℚ)).get ⟨k', hk'⟩).1 ≠
            ((([2] : List ℤ).zip ([5] : List ℚ)).get ⟨k, hk⟩).1) →
        arr[(((([2] : List ℤ).zip ([5] : List ℚ)).get ⟨k, hk⟩).1 - 1).toNat]? =
          some ((([2] : List ℤ).zip ([5] : List ℚ)).get ⟨k, hk⟩).2) :=
  c4_zero_fill_amended [2] [5] 3 (by simp) (by simp) (by decide)

end PreCMG

namespace PreCMG

/-- C10: the count-run pattern is matched against a prefix of the token
only.  A token built from a digit count, `*`, a value group (optional sign,
digits around an optional dot) and arbitrary trailing characters that cannot
extend the greedy match decodes to `count` copies of the value group's
parse; the trailing characters are silently discarded, and the token is
neither skipped nor an error. -/
theorem c10_count_run_head (cd sd d1 dt d2 rest : List Char) (v : ℚ)
    (hcd : cd ≠ []) (hcdD : ∀ c ∈ cd, c.isDigit = true)
    (hsd : sd = [] ∨ sd = ['+'] ∨ sd = ['-'])
    (hd1 : ∀ c ∈ d1, c.isDigit = true) (hd2 : ∀ c ∈ d2, c.isDigit = true)
    (hdt : dt = ['.'] ∨ (dt = [] ∧ d2 = []))
    (hstem : d1 ≠ [] ∨ dt = ['.'])
    (hrest : ∀ c, rest.head? = some c → c.isDigit = false ∧ (dt = [] → c ≠ '.'))
    (hval : pyFloat (sd ++ (d1 ++ (dt ++ d2))) = some v) :
    decodeToken (cd ++ '*' :: (sd ++ (d1 ++ (dt ++ (d2 ++ rest))))) =
      .ok (List.replicate (parseNat cd) v) := by
  have hm := mcr_general cd sd d1 dt d2 rest hcd hcdD hsd hd1 hd2 hdt hstem hrest
  simp only [decodeToken, hm, hval]

/-- Witness for C10 at the token `2*3.5xyz`: two copies of `3.5`, with `xyz`
discarded. -/
theorem c10_witness :
    decodeToken (String.toList "2*3.5xyz") = .ok [7/2, 7/2] := by
  have h := c10_count_run_head ['2'] [] ['3'] ['.'] ['5'] (String.toList "xyz") (7/2)
    (by simp) (by decide) (Or.inl rfl) (by decide) (by decide) (Or.inl rfl)
    (Or.inl (by simp))
    (by
      intro c hc
      refine ⟨?_, ?_⟩
      · obtain rfl : c = 'x' := by simpa using hc.symm
        decide
      · intro hbad
        simp at hbad)
    (by with_unfolding_all rfl)
  rw [show parseNat ['2'] = 2 from rfl] at h
  exact h

end PreCMG
